import Mathlib

/-!
The IRQ handler table of libseven (`src/irqu.c`).

A shallow embedding of `irqAddHandler`, `irqFindEntry` and `irqRemoveHandler`
together with the table invariants they are meant to maintain.

Modelling conventions
* `u16` / `u32` values are natural numbers; truncation is written `% 2 ^ w`
  at the places where the C code can overflow.
* A function pointer is a natural number, `0` being `NULL`.
* `IRQ_TABLE` is a list of slots (14 of them in a well-formed state).  A read or
  write of a slot outside `IRQ_TABLE` is undefined behaviour in C; the embedding
  returns `none` for it.
* Pointers into the table are slot indices; byte counts are kept as in the
  source (`sizeof (struct IRQ) = 8`).
-/

namespace Seven

/-! ## Data model -/

/-- Number of slots of the table: `#define N_IRQ 14`. -/
def N_IRQ : Nat := 14

/-- One slot: `struct IRQ { u32 data; IrqHandlerFunc *func; }`. -/
structure IRQ where
  data : Nat
  func : Nat
  deriving DecidableEq, Repr

/-- The global state touched by the module: the table, the cache of claimed
sources and the interrupt master enable register. -/
structure State where
  IRQ_TABLE : List IRQ
  IRQS_IN_TABLE : Nat
  REG_IME : Nat
  deriving DecidableEq, Repr

/-- Size in bytes of `struct IRQ` on the 32-bit target (two words). -/
def sizeof_IRQ : Nat := 8

/-- Size in bytes of `IRQ_TABLE`. -/
def sizeof_IRQ_TABLE : Nat := N_IRQ * sizeof_IRQ

/-- The low half-word of `data`: the IRQ source mask of a slot. -/
def IRQ.irq_mask (t : IRQ) : Nat := t.data &&& 0xFFFF

/-- The high half-word of `data`: the priority of a slot. -/
def IRQ.priority (t : IRQ) : Nat := t.data >>> 16

/-- A slot is Used when its IRQ flags are not all zero. -/
def IRQ.used (t : IRQ) : Bool := t.irq_mask != 0

/-! ## Operations -/

/-- Modelled from the spec: `irqDisableIME` is declared in `seven_irq.h`, which is
not part of the sources.  Per the collaborator contract it returns the current
value of the IME register and writes zero to it. -/
def irqDisableIME (s : State) : Nat × State :=
  (s.REG_IME, { s with REG_IME := 0 })

/-- The call `memmove(IRQ_TABLE + dst, IRQ_TABLE + src, bytes)`: the slots are
first read, then written, so overlapping regions are handled.  Touching a slot
outside the 14 slots of the table yields `none`. -/
def memmove (tbl : List IRQ) (dst src bytes : Nat) : Option (List IRQ) :=
  let n := bytes / sizeof_IRQ
  if src + n ≤ N_IRQ ∧ dst + n ≤ N_IRQ then
    some (tbl.take dst ++ (tbl.drop src).take n ++ tbl.drop (dst + n))
  else
    none

/-- The `while (true)` loop of `irqAddHandler` (source lines 60-105).  The list
argument is the memory from `i` to the end of the table, the number is the index
of `i`; `irqs` is already masked.  When `i` has run past the last slot the read
`t = *i` is outside the table. -/
def irqAddHandler_loop (irqs func priority : Nat) (s : State) :
    List IRQ → Nat → Option State
  | [], _ => none
  | t :: rest, i =>
    if t.data >>> 16 = priority ∧ t.func = func then
      -- slot eligible for merging
      some { s with
        IRQS_IN_TABLE := s.IRQS_IN_TABLE ||| irqs
        IRQ_TABLE := s.IRQ_TABLE.set i { t with data := t.data ||| irqs } }
    else if t.data &&& 0xFFFF = 0 ∨ t.data >>> 16 > priority then
      -- slot can be inserted here
      let t1 : IRQ := { data := (irqs ||| (priority <<< 16)) % 2 ^ 32, func := func }
      let bytes := (sizeof_IRQ_TABLE + 2 ^ 32 - sizeof_IRQ - i * sizeof_IRQ) % 2 ^ 32
      (memmove s.IRQ_TABLE (i + 1) i bytes).map fun tbl =>
        { s with
          IRQS_IN_TABLE := s.IRQS_IN_TABLE ||| irqs
          IRQ_TABLE := tbl.set i t1 }
    else
      irqAddHandler_loop irqs func priority s rest (i + 1)

/-- The function `irqAddHandler(irqs, func, priority)`. -/
def irqAddHandler (irqs func priority : Nat) (s : State) : Option State :=
  let (old, s) := irqDisableIME s
  let irqs := irqs &&& 0x3FFF
  if irqs = 0 ∨ func = 0 then
    some { s with REG_IME := old }
  else if s.IRQS_IN_TABLE &&& irqs ≠ 0 then
    some { s with REG_IME := old }
  else
    (irqAddHandler_loop irqs func priority s s.IRQ_TABLE 0).map fun s1 =>
      { s1 with REG_IME := old }

/-- The loop of `irqFindEntry`: `for (i = IRQ_TABLE; i->data; i++)`.  The result
`some none` is `NULL`, `some (some i)` is a pointer to slot `i`, and `none` is a
read of `i->data` outside the table. -/
def irqFindEntry_loop (irqs : Nat) : List IRQ → Nat → Option (Option Nat)
  | [], _ => none
  | t :: rest, i =>
    if t.data = 0 then some none
    else if t.data &&& irqs ≠ 0 then some (some i)
    else irqFindEntry_loop irqs rest (i + 1)

/-- The function `irqFindEntry(irqs)`. -/
def irqFindEntry (irqs : Nat) (s : State) : Option (Option Nat) :=
  irqFindEntry_loop irqs s.IRQ_TABLE 0

/-- The function `irqRemoveHandler(irqs)`, with the semicolon missing on source
line 140 supplied.  The local copy `t` is modified but never stored back, and
`IRQS_IN_TABLE` is not touched, exactly as in the source. -/
def irqRemoveHandler (irqs : Nat) (s : State) : Option State :=
  let (old, s) := irqDisableIME s
  match irqFindEntry irqs s with
  | none => none
  | some none => some { s with REG_IME := old }
  | some (some i) =>
    match s.IRQ_TABLE[i]? with
    | none => none
    | some t =>
      let t : IRQ := { t with data := t.data &&& (0xFFFFFFFF ^^^ irqs) }
      if t.data &&& 0xFFFF = 0 then
        -- if slot is now empty, throw it out
        let bytes := (sizeof_IRQ_TABLE + 2 ^ 32 - i * sizeof_IRQ) % 2 ^ 32
        (memmove s.IRQ_TABLE i (i + 1) bytes).map fun tbl =>
          { s with IRQ_TABLE := tbl, REG_IME := old }
      else
        some { s with REG_IME := old }

/-! ## Invariants of the data model -/

/-- The Used slots of a table, in table order. -/
def usedSlots (tbl : List IRQ) : List IRQ := tbl.filter IRQ.used

/-- Bitwise OR of the IRQ masks of a list of slots. -/
def orMasks (l : List IRQ) : Nat := (l.map IRQ.irq_mask).foldr (· ||| ·) 0

/-- Invariant 1: the Used slots form a prefix, the Unused slots the suffix. -/
def UsedPrefix (tbl : List IRQ) : Prop :=
  tbl.Pairwise fun a b => b.used = true → a.used = true

/-- Invariant 2: the Used slots are sorted by ascending priority. -/
def SortedByPriority (tbl : List IRQ) : Prop :=
  (usedSlots tbl).Pairwise fun a b => a.priority ≤ b.priority

/-- Invariant 3: no two Used slots share an IRQ source bit. -/
def DisjointMasks (tbl : List IRQ) : Prop :=
  (usedSlots tbl).Pairwise fun a b => a.irq_mask &&& b.irq_mask = 0

/-- Invariant 4: bits 14 and 15 of the IRQ mask are zero in every slot. -/
def MaskBits (tbl : List IRQ) : Prop :=
  ∀ t ∈ tbl, t.irq_mask.testBit 14 = false ∧ t.irq_mask.testBit 15 = false

/-- Invariant 5: the cache equals the OR of the masks of the Used slots. -/
def CacheExact (s : State) : Prop :=
  s.IRQS_IN_TABLE = orMasks (usedSlots s.IRQ_TABLE)

/-- A table state of exactly 14 slots satisfying invariants 1-5. -/
def Inv (s : State) : Prop :=
  s.IRQ_TABLE.length = N_IRQ ∧ UsedPrefix s.IRQ_TABLE ∧ SortedByPriority s.IRQ_TABLE ∧
    DisjointMasks s.IRQ_TABLE ∧ MaskBits s.IRQ_TABLE ∧ CacheExact s

instance (tbl : List IRQ) : Decidable (UsedPrefix tbl) := by
  unfold UsedPrefix; infer_instance

instance (tbl : List IRQ) : Decidable (SortedByPriority tbl) := by
  unfold SortedByPriority; infer_instance

instance (tbl : List IRQ) : Decidable (DisjointMasks tbl) := by
  unfold DisjointMasks; infer_instance

instance (tbl : List IRQ) : Decidable (MaskBits tbl) := by
  unfold MaskBits; infer_instance

instance (s : State) : Decidable (CacheExact s) := by
  unfold CacheExact; infer_instance

instance (s : State) : Decidable (Inv s) := by
  unfold Inv; infer_instance

/-- The empty table: 14 zeroed slots, nothing claimed. -/
def emptyState (ime : Nat) : State :=
  { IRQ_TABLE := List.replicate N_IRQ { data := 0, func := 0 }
    IRQS_IN_TABLE := 0
    REG_IME := ime }

/-! ## Concrete table states -/

/-- A table holding the single entry `{mask = 0x0001, prio = 5, handler = 1}`
(scenario 1 of the specification). -/
def oneEntry : State :=
  { IRQ_TABLE := { data := 0x50001, func := 1 } :: List.replicate 13 { data := 0, func := 0 }
    IRQS_IN_TABLE := 0x0001
    REG_IME := 1 }

/-- A table holding the single entry `{mask = 0x0003, prio = 5, handler = 1}`
(the state before the removal in scenario 5 of the specification). -/
def twoSources : State :=
  { IRQ_TABLE := { data := 0x50003, func := 1 } :: List.replicate 13 { data := 0, func := 0 }
    IRQS_IN_TABLE := 0x0003
    REG_IME := 1 }

/-- A table whose 14 slots are all Used: slot `i` holds source bit `i` at
priority `i` for handler `i + 1`. -/
def fullTable : State :=
  { IRQ_TABLE := (List.range 14).map fun i => { data := (i <<< 16) ||| (1 <<< i), func := i + 1 }
    IRQS_IN_TABLE := 0x3FFF
    REG_IME := 1 }

/-! ## Removal on a target where the memory after the table can be read -/

/-- The call `memmove(IRQ_TABLE + dst, IRQ_TABLE + src, bytes)` when the slot-sized
memory that follows `IRQ_TABLE` is readable and holds `past`: a read of slot 14
yields `past`, writes are still confined to the 14 slots of the table. -/
def memmove_past (past : IRQ) (tbl : List IRQ) (dst src bytes : Nat) : Option (List IRQ) :=
  let n := bytes / sizeof_IRQ
  if src + n ≤ N_IRQ + 1 ∧ dst + n ≤ N_IRQ then
    some (tbl.take dst ++ ((tbl ++ [past]).drop src).take n ++ tbl.drop (dst + n))
  else
    none

/-- The function `irqRemoveHandler(irqs)` as in `irqRemoveHandler`, except that
the `memmove` may read the slot-sized memory that follows the table. -/
def irqRemoveHandler_past (past : IRQ) (irqs : Nat) (s : State) : Option State :=
  let (old, s) := irqDisableIME s
  match irqFindEntry irqs s with
  | none => none
  | some none => some { s with REG_IME := old }
  | some (some i) =>
    match s.IRQ_TABLE[i]? with
    | none => none
    | some t =>
      let t : IRQ := { t with data := t.data &&& (0xFFFFFFFF ^^^ irqs) }
      if t.data &&& 0xFFFF = 0 then
        let bytes := (sizeof_IRQ_TABLE + 2 ^ 32 - i * sizeof_IRQ) % 2 ^ 32
        (memmove_past past s.IRQ_TABLE i (i + 1) bytes).map fun tbl =>
          { s with IRQ_TABLE := tbl, REG_IME := old }
      else
        some { s with REG_IME := old }

/-! ## Sequences of calls -/

/-- A sequence of `irqAddHandler` calls, each given as `(irqs, func, priority)`. -/
def addSeq : List (Nat × Nat × Nat) → State → Option State
  | [], s => some s
  | (irqs, func, priority) :: rest, s =>
    (irqAddHandler irqs func priority s).bind (addSeq rest)

/-- No two Used slots have both the same priority and the same handler. -/
def UniquePairs (tbl : List IRQ) : Prop :=
  (usedSlots tbl).Pairwise fun a b => ¬ (a.priority = b.priority ∧ a.func = b.func)

instance (tbl : List IRQ) : Decidable (UniquePairs tbl) := by
  unfold UniquePairs; infer_instance

/-! ## Reference algorithm of the specification -/

/-- Eligible for merge, in the words of the specification (section 3): Used,
`slot.priority == priority` and `slot.handler == func`. -/
def spec_eligible (t : IRQ) (func priority : Nat) : Prop :=
  t.used = true ∧ t.priority = priority ∧ t.func = func

instance (t : IRQ) (func priority : Nat) : Decidable (spec_eligible t func priority) := by
  unfold spec_eligible; infer_instance

/-- The scan of the reference algorithm (specification, section 4.3, step 1) on
the slots from the scan position to the end of the table: merge into an Eligible
slot; otherwise insert at an Unused slot or at a slot of greater priority,
shifting the tail right by one and discarding the last slot; otherwise advance.
`none` means that the table end was reached. -/
def spec_scan (irqs func priority : Nat) : List IRQ → Option (List IRQ)
  | [] => none
  | t :: rest =>
    if spec_eligible t func priority then
      some ({ t with data := t.data ||| irqs } :: rest)
    else if t.used = false ∨ t.priority > priority then
      some ({ data := (irqs ||| (priority <<< 16)) % 2 ^ 32, func := func } ::
        (t :: rest).dropLast)
    else
      (spec_scan irqs func priority rest).map (t :: ·)

/-- The operation `add_handler(irqs, func, priority)` as the specification
describes it (section 4.3): the three rejections, then the scan; a request that
reaches the table end is rejected (section 7).  The IME guard restores the
register, so `REG_IME` is unchanged. -/
def spec_add_handler (irqs func priority : Nat) (s : State) : State :=
  let irqs := irqs &&& 0x3FFF
  if irqs = 0 then s
  else if func = 0 then s
  else if s.IRQS_IN_TABLE &&& irqs ≠ 0 then s
  else
    match spec_scan irqs func priority s.IRQ_TABLE with
    | none => s
    | some tbl => { s with IRQ_TABLE := tbl, IRQS_IN_TABLE := s.IRQS_IN_TABLE ||| irqs }

/-! ## More concrete table states -/

/-- The table after `add(0x0001, 1, 5); add(0x0002, 2, 7)` (the state before the
removal in scenario 6 of the specification). -/
def twoEntries : State :=
  { IRQ_TABLE := { data := 0x50001, func := 1 } :: { data := 0x70002, func := 2 } ::
      List.replicate 12 { data := 0, func := 0 }
    IRQS_IN_TABLE := 0x0003
    REG_IME := 1 }

/-- Fourteen requests of priority 0, one per source bit, each with its own handler. -/
def samePriorityCalls : List (Nat × Nat × Nat) :=
  (List.range 14).map fun i => (1 <<< i, i + 1, 0)

/-- The table the requests of `samePriorityCalls` build from the empty table:
14 Used slots, all of priority 0. -/
def samePriorityTable : State :=
  { IRQ_TABLE := (List.range 14).map fun i => { data := 1 <<< i, func := i + 1 }
    IRQS_IN_TABLE := 0x3FFF
    REG_IME := 1 }

/-- Fourteen requests with priorities 0..13, one per source bit. -/
def fullTableCalls : List (Nat × Nat × Nat) :=
  (List.range 14).map fun i => (1 <<< i, i + 1, i)

/-- A table satisfying invariants 1-5 whose single Used slot is followed by 13
Unused slots that still carry a stale priority of 7 and a stale handler 3. -/
def stalePriorityTable : State :=
  { IRQ_TABLE := { data := 0x50001, func := 1 } ::
      List.replicate 13 { data := 0x70000, func := 3 }
    IRQS_IN_TABLE := 0x0001
    REG_IME := 1 }

/-- A 14-slot table outside the invariants: the 14 Used slots of `fullTable`
with a cache that claims nothing.  Bits 14 and 15 of every mask are clear. -/
def brokenCacheTable : State :=
  { fullTable with IRQS_IN_TABLE := 0 }

/-! ## Auxiliary definitions used in the proofs -/

/-- The entry written by an inserting `irqAddHandler`. -/
def newSlot (irqs func priority : Nat) : IRQ :=
  { data := (irqs ||| (priority <<< 16)) % 2 ^ 32, func := func }

/-- The slot `t` after `t.data |= irqs`. -/
def mergeSlot (irqs : Nat) (t : IRQ) : IRQ := { t with data := t.data ||| irqs }

/-- List-level form of the loop of `irqAddHandler`: the argument is the part of a
14-slot table from the scan position to the end, the result that part after the
call.  `none` means the scan ran off the table. -/
def addList (irqs func priority : Nat) : List IRQ → Option (List IRQ)
  | [] => none
  | t :: rest =>
    if t.data >>> 16 = priority ∧ t.func = func then
      some (mergeSlot irqs t :: rest)
    else if t.data &&& 0xFFFF = 0 ∨ t.data >>> 16 > priority then
      some (newSlot irqs func priority :: (t :: rest).dropLast)
    else
      (addList irqs func priority rest).map (t :: ·)

/-- Effect of an accepted `irqAddHandler` on the sequence of Used slots. -/
def addUsed (irqs func priority : Nat) : List IRQ → List IRQ
  | [] => [newSlot irqs func priority]
  | t :: rest =>
    if t.data >>> 16 = priority ∧ t.func = func then
      mergeSlot irqs t :: rest
    else if t.data >>> 16 > priority then
      newSlot irqs func priority :: t :: rest
    else
      t :: addUsed irqs func priority rest

/-- The set of IRQ source bits (0..13) present in a mask. -/
def bitsOf (x : Nat) : Finset Nat := (Finset.range 14).filter fun i => x.testBit i = true

/-! ## Bit-level facts -/

theorem and_ffff (x : Nat) : x &&& 0xFFFF = x % 65536 :=
  Nat.and_pow_two_sub_one_eq_mod x 16

theorem and_3fff (x : Nat) : x &&& 0x3FFF = x % 16384 :=
  Nat.and_pow_two_sub_one_eq_mod x 14

theorem shr16 (x : Nat) : x >>> 16 = x / 65536 := Nat.shiftRight_eq_div_pow x 16

theorem or_shl16 (m p : Nat) (hm : m < 65536) : m ||| p <<< 16 = 65536 * p + m := by
  rw [Nat.shiftLeft_eq, Nat.or_comm, Nat.mul_comm]
  exact (Nat.mul_add_lt_is_or (i := 16) hm p).symm

theorem or_and_eq_zero (a b c : Nat) : (a ||| b) &&& c = 0 ↔ a &&& c = 0 ∧ b &&& c = 0 := by
  constructor
  · intro h
    constructor
    · apply Nat.eq_of_testBit_eq
      intro i
      have := congrArg (fun x => x.testBit i) h
      simp at this ⊢
      intro ha
      exact this (Or.inl ha)
    · apply Nat.eq_of_testBit_eq
      intro i
      have := congrArg (fun x => x.testBit i) h
      simp at this ⊢
      intro ha
      exact this (Or.inr ha)
  · rintro ⟨h1, h2⟩
    apply Nat.eq_of_testBit_eq
    intro i
    have h1 := congrArg (fun x => x.testBit i) h1
    have h2 := congrArg (fun x => x.testBit i) h2
    simp at h1 h2 ⊢
    rintro (h | h)
    · exact h1 h
    · exact h2 h

theorem or_mod (a b n : Nat) : (a ||| b) % 2 ^ n = a % 2 ^ n ||| b % 2 ^ n := by
  apply Nat.eq_of_testBit_eq
  intro i
  simp [Bool.and_or_distrib_left]

theorem or_div (a b n : Nat) : (a ||| b) / 2 ^ n = a / 2 ^ n ||| b / 2 ^ n := by
  rw [← Nat.shiftRight_eq_div_pow, ← Nat.shiftRight_eq_div_pow, ← Nat.shiftRight_eq_div_pow]
  apply Nat.eq_of_testBit_eq
  intro i
  simp

theorem lt_16384_iff (x : Nat) (hx : x < 65536) :
    x < 16384 ↔ (x.testBit 14 = false ∧ x.testBit 15 = false) := by
  constructor
  · intro h
    exact ⟨Nat.testBit_lt_two_pow (i := 14) h,
      Nat.testBit_lt_two_pow (i := 15) (by omega)⟩
  · rintro ⟨h14, h15⟩
    apply Nat.lt_pow_two_of_testBit x (n := 14)
    intro i hi
    by_cases h1 : i = 14
    · subst h1; exact h14
    by_cases h2 : i = 15
    · subst h2; exact h15
    apply Nat.testBit_lt_two_pow
    calc x < 2 ^ 16 := hx
      _ ≤ 2 ^ i := Nat.pow_le_pow_right (by decide) (by omega)

theorem bitsOf_card_le (x : Nat) : (bitsOf x).card ≤ 14 := by
  have := Finset.card_filter_le (Finset.range 14) (fun i => x.testBit i = true)
  simpa [bitsOf] using this

theorem bitsOf_card_pos (x : Nat) (h0 : x ≠ 0) (hx : x < 16384) : 0 < (bitsOf x).card := by
  obtain ⟨i, hi⟩ := Nat.ne_zero_implies_bit_true h0
  apply Finset.card_pos.mpr
  refine ⟨i, ?_⟩
  simp only [bitsOf, Finset.mem_filter, Finset.mem_range]
  refine ⟨?_, hi⟩
  by_contra hge
  have : x.testBit i = false := by
    apply Nat.testBit_lt_two_pow
    calc x < 2 ^ 14 := hx
      _ ≤ 2 ^ i := Nat.pow_le_pow_right (by decide) (by omega)
  simp [this] at hi

theorem bitsOf_card_or (a b : Nat) (h : a &&& b = 0) :
    (bitsOf (a ||| b)).card = (bitsOf a).card + (bitsOf b).card := by
  have hu : bitsOf (a ||| b) = bitsOf a ∪ bitsOf b := by
    ext i
    simp only [bitsOf, Finset.mem_filter, Finset.mem_range, Finset.mem_union, Nat.testBit_or,
      Bool.or_eq_true]
    tauto
  have hd : Disjoint (bitsOf a) (bitsOf b) := by
    rw [Finset.disjoint_left]
    intro i ha hb
    simp only [bitsOf, Finset.mem_filter, Finset.mem_range] at ha hb
    have := congrArg (fun x => x.testBit i) h
    simp [ha.2, hb.2] at this
  rw [hu, Finset.card_union_of_disjoint hd]

/-! ## The loop of `irqAddHandler` as a list function -/

theorem memmove_insert (pre rem : List IRQ) (h : (pre ++ rem).length = N_IRQ) (hne : rem ≠ []) :
    memmove (pre ++ rem) (pre.length + 1) pre.length
      ((sizeof_IRQ_TABLE + 2 ^ 32 - sizeof_IRQ - pre.length * sizeof_IRQ) % 2 ^ 32)
      = some (pre ++ (rem.take 1 ++ rem.dropLast)) := by
  have hlen : 0 < rem.length := List.length_pos.mpr hne
  simp only [List.length_append, N_IRQ] at h
  have hb : (sizeof_IRQ_TABLE + 2 ^ 32 - sizeof_IRQ - pre.length * sizeof_IRQ) % 2 ^ 32 / sizeof_IRQ
      = rem.length - 1 := by
    simp only [sizeof_IRQ_TABLE, sizeof_IRQ, N_IRQ]; omega
  unfold memmove
  simp only [hb, N_IRQ]
  rw [if_pos (by omega)]
  congr 1
  rw [List.take_append_eq_append_take, List.drop_append_eq_append_drop,
    List.drop_append_eq_append_drop]
  have e1 : pre.length + 1 - pre.length = 1 := by omega
  have e2 : pre.length + 1 + (rem.length - 1) - pre.length = rem.length := by omega
  simp [e1, e2, List.take_of_length_le, List.dropLast_eq_take, List.append_assoc]
  omega

theorem set_append_length (pre : List IRQ) (t u : IRQ) (rest : List IRQ) :
    (pre ++ t :: rest).set pre.length u = pre ++ u :: rest := by
  induction pre with
  | nil => rfl
  | cons a pre ih => simp [ih]

theorem loop_eq_addList (irqs func priority : Nat) (s : State)
    (hlen : s.IRQ_TABLE.length = N_IRQ) :
    ∀ (rem pre : List IRQ), s.IRQ_TABLE = pre ++ rem →
      irqAddHandler_loop irqs func priority s rem pre.length =
        (addList irqs func priority rem).map fun r =>
          { s with IRQS_IN_TABLE := s.IRQS_IN_TABLE ||| irqs, IRQ_TABLE := pre ++ r } := by
  intro rem
  induction rem with
  | nil => intro pre _; rfl
  | cons t rest ih =>
    intro pre hs
    unfold irqAddHandler_loop addList
    by_cases hm : t.data >>> 16 = priority ∧ t.func = func
    · rw [if_pos hm, if_pos hm, hs, set_append_length]; rfl
    · rw [if_neg hm, if_neg hm]
      by_cases hi : t.data &&& 0xFFFF = 0 ∨ t.data >>> 16 > priority
      · rw [if_pos hi, if_pos hi]
        have hmm := memmove_insert pre (t :: rest) (by rw [← hs]; exact hlen) (by simp)
        simp only [hs, hmm, Option.map_some', List.take_succ_cons, List.take_zero,
          List.singleton_append, set_append_length]
        rfl
      · rw [if_neg hi, if_neg hi]
        have := ih (pre ++ [t]) (by simp [hs])
        simp only [List.length_append, List.length_singleton] at this
        rw [this]
        cases addList irqs func priority rest <;> simp

theorem newSlot_irq_mask (m f p : Nat) (hm : m < 65536) : (newSlot m f p).irq_mask = m := by
  unfold newSlot IRQ.irq_mask
  simp only [or_shl16 m p hm, and_ffff]
  omega

theorem newSlot_priority (m f p : Nat) (hm : m < 65536) (hp : p < 65536) :
    (newSlot m f p).priority = p := by
  unfold newSlot IRQ.priority
  simp only [or_shl16 m p hm, shr16]
  omega

theorem mergeSlot_irq_mask (m : Nat) (t : IRQ) (hm : m < 65536) :
    (mergeSlot m t).irq_mask = t.irq_mask ||| m := by
  unfold mergeSlot IRQ.irq_mask
  simp only [and_ffff]
  have := or_mod t.data m 16
  simp only [Nat.reducePow] at this
  rw [this, Nat.mod_eq_of_lt hm]

theorem mergeSlot_priority (m : Nat) (t : IRQ) (hm : m < 65536) :
    (mergeSlot m t).priority = t.priority := by
  unfold mergeSlot IRQ.priority
  simp only [shr16]
  have := or_div t.data m 16
  simp only [Nat.reducePow] at this
  rw [this, Nat.div_eq_of_lt hm, Nat.or_zero]

theorem or_ne_zero_right (a m : Nat) (hm : m ≠ 0) : a ||| m ≠ 0 := by
  intro h
  apply hm
  apply Nat.eq_of_testBit_eq
  intro i
  have := congrArg (fun x => x.testBit i) h
  simp at this ⊢
  exact this.2

theorem used_iff (t : IRQ) : t.used = true ↔ t.irq_mask ≠ 0 := by
  simp [IRQ.used]

theorem unused_iff (t : IRQ) : t.used = false ↔ t.data &&& 0xFFFF = 0 := by
  simp [IRQ.used, IRQ.irq_mask]

theorem newSlot_used (m f p : Nat) (hm : m < 65536) (h0 : m ≠ 0) :
    (newSlot m f p).used = true := by
  rw [used_iff, newSlot_irq_mask m f p hm]; exact h0

theorem mergeSlot_used (m : Nat) (t : IRQ) (hm : m < 65536) (h0 : m ≠ 0) :
    (mergeSlot m t).used = true := by
  rw [used_iff, mergeSlot_irq_mask m t hm]; exact or_ne_zero_right _ _ h0

/-- Merging into an Unused slot whose stale fields match yields the new entry. -/
theorem mergeSlot_unused (m f p : Nat) (z : IRQ) (hm : m < 65536) (hp : p < 65536)
    (hz : z.data &&& 0xFFFF = 0) (hzp : z.data >>> 16 = p) (hzf : z.func = f) :
    mergeSlot m z = newSlot m f p := by
  unfold mergeSlot newSlot
  rw [and_ffff] at hz
  rw [shr16] at hzp
  have hd : z.data = 65536 * p := by omega
  have e1 : z.data ||| m = 65536 * p + m := by
    rw [hd]; exact (Nat.mul_add_lt_is_or (i := 16) hm p).symm
  rw [e1, or_shl16 m p hm, hzf]
  congr 1
  omega

theorem mem_addUsed (m f p : Nat) : ∀ (U : List IRQ) (x : IRQ), x ∈ addUsed m f p U →
    x ∈ U ∨ x = newSlot m f p ∨ ∃ t ∈ U, x = mergeSlot m t := by
  intro U
  induction U with
  | nil => intro x hx; simp [addUsed] at hx; exact Or.inr (Or.inl hx)
  | cons t rest ih =>
    intro x hx
    unfold addUsed at hx
    split at hx
    · rcases List.mem_cons.mp hx with h | h
      · exact Or.inr (Or.inr ⟨t, List.mem_cons_self _ _, h⟩)
      · exact Or.inl (List.mem_cons_of_mem _ h)
    · split at hx
      · rcases List.mem_cons.mp hx with h | h
        · exact Or.inr (Or.inl h)
        · exact Or.inl h
      · rcases List.mem_cons.mp hx with h | h
        · exact Or.inl (h ▸ List.mem_cons_self _ _)
        · rcases ih x h with h | h | ⟨t0, ht0, h⟩
          · exact Or.inl (List.mem_cons_of_mem _ h)
          · exact Or.inr (Or.inl h)
          · exact Or.inr (Or.inr ⟨t0, List.mem_cons_of_mem _ ht0, h⟩)

theorem addUsed_all_used (m f p : Nat) (hm : m < 65536) (h0 : m ≠ 0) (U : List IRQ)
    (hU : ∀ u ∈ U, u.used = true) : ∀ x ∈ addUsed m f p U, x.used = true := by
  intro x hx
  rcases mem_addUsed m f p U x hx with h | h | ⟨t, _, h⟩
  · exact hU x h
  · rw [h]; exact newSlot_used m f p hm h0
  · rw [h]; exact mergeSlot_used m t hm h0

theorem addUsed_length (m f p : Nat) : ∀ U : List IRQ,
    U.length ≤ (addUsed m f p U).length ∧ (addUsed m f p U).length ≤ U.length + 1 := by
  intro U
  induction U with
  | nil => simp [addUsed]
  | cons t rest ih =>
    unfold addUsed
    split
    · simp
    · split
      · simp
      · simp only [List.length_cons]; omega

theorem addList_cons (m f p : Nat) (t : IRQ) (rest : List IRQ) :
    addList m f p (t :: rest) =
      if t.data >>> 16 = p ∧ t.func = f then some (mergeSlot m t :: rest)
      else if t.data &&& 0xFFFF = 0 ∨ t.data >>> 16 > p then
        some (newSlot m f p :: (t :: rest).dropLast)
      else (addList m f p rest).map (t :: ·) := rfl

theorem addUsed_cons (m f p : Nat) (t : IRQ) (rest : List IRQ) :
    addUsed m f p (t :: rest) =
      if t.data >>> 16 = p ∧ t.func = f then mergeSlot m t :: rest
      else if t.data >>> 16 > p then newSlot m f p :: t :: rest
      else t :: addUsed m f p rest := rfl

theorem addList_used_append (m f p : Nat) (hm : m < 65536) (hp : p < 65536)
    (z : IRQ) (Z : List IRQ) (hz : z.used = false) :
    ∀ U : List IRQ, (∀ u ∈ U, u.used = true) →
      ∃ tail, addList m f p (U ++ z :: Z) = some (addUsed m f p U ++ tail) ∧
        tail.Sublist (z :: Z) ∧
        (addUsed m f p U ++ tail).length = (U ++ z :: Z).length := by
  intro U
  induction U with
  | nil =>
    intro _
    rw [unused_iff] at hz
    rw [List.nil_append, addList_cons]
    have hnil : addUsed m f p [] = [newSlot m f p] := rfl
    rw [hnil]
    by_cases hmg : z.data >>> 16 = p ∧ z.func = f
    · rw [if_pos hmg]
      refine ⟨Z, ?_, List.sublist_cons_self _ _, by simp⟩
      rw [mergeSlot_unused m f p z hm hp hz hmg.1 hmg.2]; rfl
    · rw [if_neg hmg, if_pos (Or.inl hz)]
      refine ⟨(z :: Z).dropLast, rfl, List.dropLast_sublist _, ?_⟩
      simp
  | cons t rest ih =>
    intro hU
    have ht : t.used = true := hU t (List.mem_cons_self _ _)
    have ht0 : ¬ t.data &&& 0xFFFF = 0 := by
      intro h; rw [← unused_iff] at h; rw [h] at ht; cases ht
    obtain ⟨tail, he, hsub, hlen⟩ := ih (fun u hu => hU u (List.mem_cons_of_mem _ hu))
    rw [List.cons_append, addList_cons, addUsed_cons]
    by_cases hmg : t.data >>> 16 = p ∧ t.func = f
    · rw [if_pos hmg, if_pos hmg]
      exact ⟨z :: Z, rfl, List.Sublist.refl _, by simp⟩
    · rw [if_neg hmg, if_neg hmg]
      by_cases hgt : t.data >>> 16 > p
      · rw [if_pos (Or.inr hgt), if_pos hgt]
        refine ⟨(z :: Z).dropLast, ?_, List.dropLast_sublist _, ?_⟩
        · rw [← List.cons_append, List.dropLast_append_cons]; rfl
        · simp; omega
      · rw [if_neg (by rintro (h | h); exact ht0 h; exact hgt h), if_neg hgt, he]
        exact ⟨tail, rfl, hsub, by simpa using hlen⟩

/-! ## Invariants and the Used sequence -/

theorem usedSlots_append_unused (A Z : List IRQ) (hA : ∀ a ∈ A, a.used = true)
    (hZ : ∀ z ∈ Z, z.used = false) : usedSlots (A ++ Z) = A := by
  unfold usedSlots
  rw [List.filter_append, List.filter_eq_self.mpr hA, List.filter_eq_nil_iff.mpr, List.append_nil]
  intro z hz
  simp [hZ z hz]

theorem usedPrefix_split : ∀ tbl : List IRQ, UsedPrefix tbl →
    ∃ Z, tbl = usedSlots tbl ++ Z ∧ ∀ z ∈ Z, z.used = false := by
  intro tbl
  induction tbl with
  | nil => intro _; exact ⟨[], rfl, by simp⟩
  | cons t rest ih =>
    intro h
    unfold UsedPrefix at h
    rw [List.pairwise_cons] at h
    by_cases ht : t.used = true
    · obtain ⟨Z, hZ, hu⟩ := ih h.2
      refine ⟨Z, ?_, hu⟩
      unfold usedSlots at hZ ⊢
      rw [List.filter_cons_of_pos ht, List.cons_append, ← hZ]
    · have hall : ∀ b ∈ t :: rest, b.used = false := by
        intro b hb
        rcases List.mem_cons.mp hb with hb | hb
        · rw [hb]; simpa using ht
        · by_contra hbu
          exact ht (h.1 b hb (by simpa using hbu))
      refine ⟨t :: rest, ?_, hall⟩
      have : usedSlots (t :: rest) = [] := by
        unfold usedSlots
        rw [List.filter_eq_nil_iff]
        intro b hb
        simp [hall b hb]
      rw [this]; rfl

theorem usedPrefix_append (A Z : List IRQ) (hA : ∀ a ∈ A, a.used = true)
    (hZ : ∀ z ∈ Z, z.used = false) : UsedPrefix (A ++ Z) := by
  unfold UsedPrefix
  rw [List.pairwise_append]
  refine ⟨?_, ?_, ?_⟩
  · exact List.Pairwise.imp_of_mem (R := fun _ _ => True) (fun ha _ _ _ => hA _ ha)
      (List.pairwise_of_forall (fun _ _ => trivial))
  · exact List.Pairwise.imp_of_mem (R := fun _ _ => True)
      (fun _ hb _ hbu => by rw [hZ _ hb] at hbu; cases hbu)
      (List.pairwise_of_forall (fun _ _ => trivial))
  · intro a ha b _ _
    exact hA a ha

theorem orMasks_cons (t : IRQ) (l : List IRQ) : orMasks (t :: l) = t.irq_mask ||| orMasks l := rfl

theorem and_orMasks_eq_zero (a : Nat) : ∀ l : List IRQ,
    a &&& orMasks l = 0 ↔ ∀ u ∈ l, a &&& u.irq_mask = 0 := by
  intro l
  induction l with
  | nil => simp [orMasks]
  | cons t rest ih =>
    rw [orMasks_cons, Nat.and_comm, or_and_eq_zero, Nat.and_comm, Nat.and_comm (orMasks rest), ih]
    simp

theorem irq_mask_lt (t : IRQ) : t.irq_mask < 65536 := by
  unfold IRQ.irq_mask; rw [and_ffff]; omega

/-- Pairwise disjoint non-empty masks over 14 source bits: each slot owns a bit. -/
theorem length_le_card_bits : ∀ U : List IRQ,
    (∀ u ∈ U, u.irq_mask ≠ 0 ∧ u.irq_mask < 16384) →
    U.Pairwise (fun a b => a.irq_mask &&& b.irq_mask = 0) →
    U.length ≤ (bitsOf (orMasks U)).card := by
  intro U
  induction U with
  | nil => intro _ _; simp
  | cons t rest ih =>
    intro hU hp
    rw [List.pairwise_cons] at hp
    have h1 := ih (fun u hu => hU u (List.mem_cons_of_mem _ hu)) hp.2
    have hd : t.irq_mask &&& orMasks rest = 0 := (and_orMasks_eq_zero _ rest).mpr hp.1
    have ht := hU t (List.mem_cons_self _ _)
    have h2 := bitsOf_card_pos t.irq_mask ht.1 ht.2
    rw [orMasks_cons, bitsOf_card_or _ _ hd, List.length_cons]
    omega

/-- An accepted request finds at most 13 Used slots. -/
theorem used_length_le (U : List IRQ) (m : Nat)
    (hU : ∀ u ∈ U, u.irq_mask ≠ 0 ∧ u.irq_mask < 16384)
    (hp : U.Pairwise (fun a b => a.irq_mask &&& b.irq_mask = 0))
    (h0 : m ≠ 0) (hm : m < 16384) (hd : orMasks U &&& m = 0) : U.length + 1 ≤ 14 := by
  have h1 := length_le_card_bits U hU hp
  have h2 := bitsOf_card_pos m h0 hm
  have h3 := bitsOf_card_or _ _ hd
  have h4 := bitsOf_card_le (orMasks U ||| m)
  omega

theorem addUsed_sorted (m f p : Nat) (hm : m < 65536) (hp : p < 65536) : ∀ U : List IRQ,
    U.Pairwise (fun a b => a.priority ≤ b.priority) →
    (addUsed m f p U).Pairwise (fun a b => a.priority ≤ b.priority) := by
  intro U
  induction U with
  | nil => intro _; simp [addUsed]
  | cons t rest ih =>
    intro h
    rw [List.pairwise_cons] at h
    rw [addUsed_cons]
    by_cases hmg : t.data >>> 16 = p ∧ t.func = f
    · rw [if_pos hmg, List.pairwise_cons]
      refine ⟨fun b hb => ?_, h.2⟩
      rw [mergeSlot_priority m t hm]; exact h.1 b hb
    · rw [if_neg hmg]
      by_cases hgt : t.data >>> 16 > p
      · rw [if_pos hgt, List.pairwise_cons]
        refine ⟨fun b hb => ?_, List.pairwise_cons.mpr h⟩
        rw [newSlot_priority m f p hm hp]
        have htp : p ≤ t.priority := Nat.le_of_lt hgt
        rcases List.mem_cons.mp hb with hb | hb
        · rw [hb]; exact htp
        · exact Nat.le_trans htp (h.1 b hb)
      · rw [if_neg hgt, List.pairwise_cons]
        refine ⟨fun b hb => ?_, ih h.2⟩
        have htp : t.priority ≤ p := Nat.le_of_not_lt hgt
        rcases mem_addUsed m f p rest b hb with hb | hb | ⟨t0, ht0, hb⟩
        · exact h.1 b hb
        · rw [hb, newSlot_priority m f p hm hp]; exact htp
        · rw [hb, mergeSlot_priority m t0 hm]; exact h.1 t0 ht0

theorem addUsed_disjoint (m f p : Nat) (hm : m < 65536) : ∀ U : List IRQ,
    U.Pairwise (fun a b => a.irq_mask &&& b.irq_mask = 0) →
    (∀ u ∈ U, u.irq_mask &&& m = 0) →
    (addUsed m f p U).Pairwise (fun a b => a.irq_mask &&& b.irq_mask = 0) := by
  intro U
  induction U with
  | nil => intro _ _; simp [addUsed]
  | cons t rest ih =>
    intro h hd
    rw [List.pairwise_cons] at h
    have hdt := hd t (List.mem_cons_self _ _)
    have hdr : ∀ u ∈ rest, u.irq_mask &&& m = 0 := fun u hu => hd u (List.mem_cons_of_mem _ hu)
    rw [addUsed_cons]
    by_cases hmg : t.data >>> 16 = p ∧ t.func = f
    · rw [if_pos hmg, List.pairwise_cons]
      refine ⟨fun b hb => ?_, h.2⟩
      rw [mergeSlot_irq_mask m t hm, or_and_eq_zero]
      exact ⟨h.1 b hb, by rw [Nat.and_comm]; exact hdr b hb⟩
    · rw [if_neg hmg]
      by_cases hgt : t.data >>> 16 > p
      · rw [if_pos hgt, List.pairwise_cons]
        refine ⟨fun b hb => ?_, List.pairwise_cons.mpr h⟩
        rw [newSlot_irq_mask m f p hm, Nat.and_comm]
        exact hd b hb
      · rw [if_neg hgt, List.pairwise_cons]
        refine ⟨fun b hb => ?_, ih h.2 hdr⟩
        rcases mem_addUsed m f p rest b hb with hb | hb | ⟨t0, ht0, hb⟩
        · exact h.1 b hb
        · rw [hb, newSlot_irq_mask m f p hm]; exact hdt
        · rw [hb, mergeSlot_irq_mask m t0 hm, Nat.and_comm, or_and_eq_zero]
          exact ⟨by rw [Nat.and_comm]; exact h.1 t0 ht0, by rw [Nat.and_comm]; exact hdt⟩

theorem addUsed_orMasks (m f p : Nat) (hm : m < 65536) : ∀ U : List IRQ,
    orMasks (addUsed m f p U) = orMasks U ||| m := by
  intro U
  induction U with
  | nil => simp [addUsed, orMasks, newSlot_irq_mask m f p hm]
  | cons t rest ih =>
    rw [addUsed_cons]
    by_cases hmg : t.data >>> 16 = p ∧ t.func = f
    · rw [if_pos hmg, orMasks_cons, orMasks_cons, mergeSlot_irq_mask m t hm,
        Nat.or_assoc, Nat.or_assoc, Nat.or_comm m]
    · rw [if_neg hmg]
      by_cases hgt : t.data >>> 16 > p
      · rw [if_pos hgt, orMasks_cons, newSlot_irq_mask m f p hm, Nat.or_comm]
      · rw [if_neg hgt, orMasks_cons, orMasks_cons, ih, Nat.or_assoc]

theorem maskBits_iff (t : IRQ) :
    (t.irq_mask.testBit 14 = false ∧ t.irq_mask.testBit 15 = false) ↔ t.irq_mask < 16384 :=
  (lt_16384_iff _ (irq_mask_lt t)).symm

theorem or_lt_16384 (a b : Nat) (ha : a < 16384) (hb : b < 16384) : a ||| b < 16384 :=
  Nat.or_lt_two_pow (n := 14) ha hb

theorem newSlot_maskBits (m f p : Nat) (hm : m < 16384) :
    (newSlot m f p).irq_mask < 16384 := by
  rw [newSlot_irq_mask m f p (by omega)]; exact hm

theorem mergeSlot_maskBits (m : Nat) (t : IRQ) (hm : m < 16384) (ht : t.irq_mask < 16384) :
    (mergeSlot m t).irq_mask < 16384 := by
  rw [mergeSlot_irq_mask m t (by omega)]; exact or_lt_16384 _ _ ht hm

/-! ## `irqAddHandler` on states satisfying the invariants -/

theorem irqAddHandler_rejected (irqs func priority : Nat) (s : State)
    (h : irqs &&& 0x3FFF = 0 ∨ func = 0 ∨ s.IRQS_IN_TABLE &&& (irqs &&& 0x3FFF) ≠ 0) :
    irqAddHandler irqs func priority s = some s := by
  unfold irqAddHandler irqDisableIME
  simp only
  by_cases h1 : irqs &&& 0x3FFF = 0 ∨ func = 0
  · rw [if_pos h1]
  · rw [if_neg h1, if_pos]
    rcases h with h | h | h
    · exact absurd (Or.inl h) h1
    · exact absurd (Or.inr h) h1
    · exact h

theorem irqAddHandler_accepted (irqs func priority : Nat) (s : State)
    (hlen : s.IRQ_TABLE.length = N_IRQ)
    (h1 : irqs &&& 0x3FFF ≠ 0) (h2 : func ≠ 0)
    (h3 : s.IRQS_IN_TABLE &&& (irqs &&& 0x3FFF) = 0) :
    irqAddHandler irqs func priority s =
      (addList (irqs &&& 0x3FFF) func priority s.IRQ_TABLE).map fun r =>
        { IRQ_TABLE := r, IRQS_IN_TABLE := s.IRQS_IN_TABLE ||| (irqs &&& 0x3FFF),
          REG_IME := s.REG_IME } := by
  unfold irqAddHandler irqDisableIME
  simp only
  rw [if_neg (by rintro (h | h); exact h1 h; exact h2 h), if_neg (by simpa using h3)]
  have := loop_eq_addList (irqs &&& 0x3FFF) func priority { s with REG_IME := 0 } hlen
    s.IRQ_TABLE [] rfl
  simp only [List.length_nil, List.nil_append] at this
  rw [this]
  cases addList (irqs &&& 0x3FFF) func priority s.IRQ_TABLE <;> rfl

theorem inv_used_masks (s : State) (hinv : Inv s) :
    ∀ u ∈ usedSlots s.IRQ_TABLE, u.irq_mask ≠ 0 ∧ u.irq_mask < 16384 := by
  intro u hu
  unfold usedSlots at hu
  rw [List.mem_filter] at hu
  exact ⟨(used_iff u).mp hu.2, (maskBits_iff u).mp (hinv.2.2.2.2.1 u hu.1)⟩

/-- Shape of the table after an accepted call in a state satisfying the invariants. -/
theorem irqAddHandler_shape (irqs func priority : Nat) (s : State) (hinv : Inv s)
    (hp : priority < 65536) (h1 : irqs &&& 0x3FFF ≠ 0) (h2 : func ≠ 0)
    (h3 : s.IRQS_IN_TABLE &&& (irqs &&& 0x3FFF) = 0) :
    ∃ tail, irqAddHandler irqs func priority s = some
        { IRQ_TABLE := addUsed (irqs &&& 0x3FFF) func priority (usedSlots s.IRQ_TABLE) ++ tail,
          IRQS_IN_TABLE := s.IRQS_IN_TABLE ||| (irqs &&& 0x3FFF),
          REG_IME := s.REG_IME } ∧
      (∀ x ∈ tail, x.used = false) ∧ (∀ x ∈ tail, x ∈ s.IRQ_TABLE) ∧
      (addUsed (irqs &&& 0x3FFF) func priority (usedSlots s.IRQ_TABLE) ++ tail).length
        = N_IRQ := by
  have hlen := hinv.1
  have hpre := hinv.2.1
  have hdis := hinv.2.2.2.1
  have hcache : s.IRQS_IN_TABLE = orMasks (usedSlots s.IRQ_TABLE) := hinv.2.2.2.2.2
  have hm : irqs &&& 0x3FFF < 16384 := by rw [and_3fff]; omega
  obtain ⟨Z, hsplit, hZ⟩ := usedPrefix_split s.IRQ_TABLE hpre
  have hcnt := used_length_le (usedSlots s.IRQ_TABLE) (irqs &&& 0x3FFF)
    (inv_used_masks s hinv) hdis h1 hm (by rw [← hcache]; exact h3)
  have hZne : Z ≠ [] := by
    intro h
    have := congrArg List.length hsplit
    rw [h, List.append_nil, hlen] at this
    simp only [N_IRQ] at this
    omega
  obtain ⟨z, Z1, rfl⟩ := List.exists_cons_of_ne_nil hZne
  obtain ⟨tail, he, hsub, hl⟩ := addList_used_append (irqs &&& 0x3FFF) func priority
    (by omega) hp z Z1 (hZ z (List.mem_cons_self _ _)) (usedSlots s.IRQ_TABLE)
    (fun u hu => by unfold usedSlots at hu; exact (List.mem_filter.mp hu).2)
  refine ⟨tail, ?_, ?_, ?_, ?_⟩
  · rw [irqAddHandler_accepted irqs func priority s hlen h1 h2 h3]
    rw [← hsplit] at he
    rw [he]; rfl
  · exact fun x hx => hZ x (hsub.subset hx)
  · intro x hx
    rw [hsplit]
    exact List.mem_append_right _ (hsub.subset hx)
  · rw [hl, ← hsplit, hlen]

/-- Every call in a state satisfying the invariants completes inside the table
and re-establishes the invariants. -/
theorem irqAddHandler_inv (irqs func priority : Nat) (s : State) (hinv : Inv s)
    (hp : priority < 65536) :
    ∃ s1, irqAddHandler irqs func priority s = some s1 ∧ Inv s1 := by
  by_cases hrej : irqs &&& 0x3FFF = 0 ∨ func = 0 ∨ s.IRQS_IN_TABLE &&& (irqs &&& 0x3FFF) ≠ 0
  · exact ⟨s, irqAddHandler_rejected irqs func priority s hrej, hinv⟩
  · have h1 : irqs &&& 0x3FFF ≠ 0 := fun h => hrej (Or.inl h)
    have h2 : func ≠ 0 := fun h => hrej (Or.inr (Or.inl h))
    have h3 : s.IRQS_IN_TABLE &&& (irqs &&& 0x3FFF) = 0 := by
      by_contra h; exact hrej (Or.inr (Or.inr h))
    have hm : irqs &&& 0x3FFF < 16384 := by rw [and_3fff]; omega
    have hm16 : irqs &&& 0x3FFF < 65536 := by omega
    obtain ⟨tail, he, hun, hmem, hl⟩ := irqAddHandler_shape irqs func priority s hinv hp h1 h2 h3
    have hU : ∀ u ∈ usedSlots s.IRQ_TABLE, u.used = true := fun u hu => by
      unfold usedSlots at hu; exact (List.mem_filter.mp hu).2
    have hA := addUsed_all_used (irqs &&& 0x3FFF) func priority hm16 h1 _ hU
    have husd := usedSlots_append_unused _ tail hA hun
    obtain ⟨hlen, hpre, hsort, hdis, hbits, hcache⟩ := hinv
    have hinv : Inv s := ⟨hlen, hpre, hsort, hdis, hbits, hcache⟩
    refine ⟨_, he, hl, usedPrefix_append _ _ hA hun, ?_, ?_, ?_, ?_⟩
    · show SortedByPriority (_ ++ tail)
      unfold SortedByPriority
      rw [husd]
      exact addUsed_sorted _ _ _ hm16 hp _ hsort
    · show DisjointMasks (_ ++ tail)
      unfold DisjointMasks
      rw [husd]
      refine addUsed_disjoint _ _ _ hm16 _ hdis ?_
      have : (irqs &&& 0x3FFF) &&& orMasks (usedSlots s.IRQ_TABLE) = 0 := by
        rw [Nat.and_comm, ← hcache]; exact h3
      intro u hu
      rw [Nat.and_comm]
      exact (and_orMasks_eq_zero _ _).mp this u hu
    · show MaskBits (_ ++ tail)
      intro x hx
      rw [maskBits_iff]
      rcases List.mem_append.mp hx with hx | hx
      · rcases mem_addUsed _ _ _ _ x hx with h | h | ⟨t, ht, h⟩
        · exact (inv_used_masks s hinv x h).2
        · rw [h]; exact newSlot_maskBits _ _ _ hm
        · rw [h]; exact mergeSlot_maskBits _ t hm (inv_used_masks s hinv t ht).2
      · exact (maskBits_iff x).mp (hbits x (hmem x hx))
    · show _ = orMasks (usedSlots (_ ++ tail))
      rw [husd, addUsed_orMasks _ _ _ hm16, ← hcache]

theorem addUsed_no_eligible (m f p : Nat) : ∀ U : List IRQ,
    (∀ t ∈ U, ¬ (t.priority = p ∧ t.func = f)) →
    addUsed m f p U =
      U.takeWhile (fun t => decide (t.priority ≤ p)) ++
        newSlot m f p :: U.dropWhile (fun t => decide (t.priority ≤ p)) := by
  intro U
  induction U with
  | nil => intro _; rfl
  | cons t rest ih =>
    intro h
    have ht : ¬ (t.data >>> 16 = p ∧ t.func = f) := h t (List.mem_cons_self _ _)
    rw [addUsed_cons, if_neg ht]
    by_cases hgt : t.data >>> 16 > p
    · have hle : ¬ t.priority ≤ p := Nat.not_le_of_gt hgt
      rw [if_pos hgt, List.takeWhile_cons_of_neg (by simpa using hle),
        List.dropWhile_cons_of_neg (by simpa using hle)]
      rfl
    · have hle : t.priority ≤ p := Nat.le_of_not_lt hgt
      rw [if_neg hgt, List.takeWhile_cons_of_pos (by simpa using hle),
        List.dropWhile_cons_of_pos (by simpa using hle),
        ih (fun u hu => h u (List.mem_cons_of_mem _ hu))]
      rfl

theorem dropWhile_priority_gt (p : Nat) : ∀ U : List IRQ,
    U.Pairwise (fun a b => a.priority ≤ b.priority) →
    ∀ t ∈ U.dropWhile (fun t => decide (t.priority ≤ p)), p < t.priority := by
  intro U
  induction U with
  | nil => intro _ t ht; simp at ht
  | cons u rest ih =>
    intro h t ht
    rw [List.pairwise_cons] at h
    by_cases hle : u.priority ≤ p
    · rw [List.dropWhile_cons_of_pos (by simpa using hle)] at ht
      exact ih h.2 t ht
    · rw [List.dropWhile_cons_of_neg (by simpa using hle)] at ht
      rcases List.mem_cons.mp ht with ht | ht
      · rw [ht]; omega
      · have := h.1 t ht; omega

theorem mem_addList (m f p : Nat) : ∀ (l r : List IRQ), addList m f p l = some r →
    ∀ x ∈ r, x ∈ l ∨ x = newSlot m f p ∨ ∃ t ∈ l, x = mergeSlot m t := by
  intro l
  induction l with
  | nil => intro r h; cases h
  | cons t rest ih =>
    intro r h x hx
    rw [addList_cons] at h
    split at h
    · cases h
      rcases List.mem_cons.mp hx with hx | hx
      · exact Or.inr (Or.inr ⟨t, List.mem_cons_self _ _, hx⟩)
      · exact Or.inl (List.mem_cons_of_mem _ hx)
    · split at h
      · cases h
        rcases List.mem_cons.mp hx with hx | hx
        · exact Or.inr (Or.inl hx)
        · exact Or.inl ((List.dropLast_sublist _).subset hx)
      · cases hr : addList m f p rest with
        | none => rw [hr] at h; cases h
        | some r1 =>
          rw [hr] at h
          cases h
          rcases List.mem_cons.mp hx with hx | hx
          · exact Or.inl (hx ▸ List.mem_cons_self _ _)
          · rcases ih r1 hr x hx with h | h | ⟨t0, ht0, h⟩
            · exact Or.inl (List.mem_cons_of_mem _ h)
            · exact Or.inr (Or.inl h)
            · exact Or.inr (Or.inr ⟨t0, List.mem_cons_of_mem _ ht0, h⟩)

theorem addList_length (m f p : Nat) : ∀ (l r : List IRQ), addList m f p l = some r →
    r.length = l.length := by
  intro l
  induction l with
  | nil => intro r h; cases h
  | cons t rest ih =>
    intro r h
    rw [addList_cons] at h
    split at h
    · cases h; rfl
    · split at h
      · cases h; simp
      · cases hr : addList m f p rest with
        | none => rw [hr] at h; cases h
        | some r1 =>
          rw [hr] at h
          cases h
          simp [ih r1 hr]

theorem addList_some_of_unused (m f p : Nat) : ∀ l : List IRQ,
    (∃ t ∈ l, t.used = false) → ∃ r, addList m f p l = some r := by
  intro l
  induction l with
  | nil => rintro ⟨t, ht, _⟩; cases ht
  | cons t rest ih =>
    rintro ⟨u, hu, huu⟩
    rw [addList_cons]
    by_cases hmg : t.data >>> 16 = p ∧ t.func = f
    · rw [if_pos hmg]; exact ⟨_, rfl⟩
    · rw [if_neg hmg]
      by_cases hi : t.data &&& 0xFFFF = 0 ∨ t.data >>> 16 > p
      · rw [if_pos hi]; exact ⟨_, rfl⟩
      · rw [if_neg hi]
        have hne : u ≠ t := by
          rintro rfl
          exact hi (Or.inl ((unused_iff u).mp huu))
        have hur : u ∈ rest := by
          rcases List.mem_cons.mp hu with h | h
          · exact absurd h hne
          · exact h
        obtain ⟨r, hr⟩ := ih ⟨u, hur, huu⟩
        exact ⟨t :: r, by rw [hr]; rfl⟩

theorem mergeSlot_newSlot (m1 m2 f p : Nat) (hm1 : m1 < 65536) (hm2 : m2 < 65536)
    (hp : p < 65536) : mergeSlot m2 (newSlot m1 f p) = newSlot (m1 ||| m2) f p := by
  have hm : m1 ||| m2 < 65536 := Nat.or_lt_two_pow (n := 16) hm1 hm2
  unfold mergeSlot newSlot
  simp only [or_shl16 m1 p hm1, or_shl16 (m1 ||| m2) p hm]
  have e1 : (65536 * p + m1) % 2 ^ 32 = 65536 * p + m1 := by omega
  have e2 : (65536 * p + (m1 ||| m2)) % 2 ^ 32 = 65536 * p + (m1 ||| m2) := by omega
  rw [e1, e2]
  have a1 : 65536 * p + m1 = 65536 * p ||| m1 := Nat.mul_add_lt_is_or (i := 16) hm1 p
  have a2 : 65536 * p + (m1 ||| m2) = 65536 * p ||| (m1 ||| m2) :=
    Nat.mul_add_lt_is_or (i := 16) hm p
  rw [a1, a2, Nat.or_assoc]

theorem mergeSlot_mergeSlot (m1 m2 : Nat) (t : IRQ) :
    mergeSlot m2 (mergeSlot m1 t) = mergeSlot (m1 ||| m2) t := by
  unfold mergeSlot
  simp only [Nat.or_assoc]

/-- Adding `m1` and then `m2` for the same handler and priority acts on the table
like adding `m1 ||| m2` at once. -/
theorem addList_twice (m1 m2 f p : Nat) (hm1 : m1 < 65536) (hm2 : m2 < 65536)
    (hp : p < 65536) : ∀ (l r1 : List IRQ), addList m1 f p l = some r1 →
    addList m2 f p r1 = addList (m1 ||| m2) f p l := by
  intro l
  induction l with
  | nil => intro r1 h; cases h
  | cons t rest ih =>
    intro r1 h
    rw [addList_cons] at h
    rw [addList_cons (m1 ||| m2)]
    by_cases hmg : t.data >>> 16 = p ∧ t.func = f
    · rw [if_pos hmg] at h
      rw [if_pos hmg]
      cases h
      have hp1 := mergeSlot_priority m1 t hm1
      unfold IRQ.priority at hp1
      rw [addList_cons, if_pos ⟨by rw [hp1]; exact hmg.1, hmg.2⟩, mergeSlot_mergeSlot]
    · rw [if_neg hmg] at h
      rw [if_neg hmg]
      by_cases hi : t.data &&& 0xFFFF = 0 ∨ t.data >>> 16 > p
      · rw [if_pos hi] at h
        rw [if_pos hi]
        cases h
        have hp1 := newSlot_priority m1 f p hm1 hp
        unfold IRQ.priority at hp1
        rw [addList_cons, if_pos ⟨hp1, rfl⟩, mergeSlot_newSlot m1 m2 f p hm1 hm2 hp]
      · rw [if_neg hi] at h
        rw [if_neg hi]
        cases hr : addList m1 f p rest with
        | none => rw [hr] at h; cases h
        | some r =>
          rw [hr] at h
          cases h
          rw [addList_cons, if_neg hmg, if_neg hi, ih r hr]

theorem or_and_3fff (a b : Nat) : (a ||| b) &&& 0x3FFF = (a &&& 0x3FFF) ||| (b &&& 0x3FFF) := by
  apply Nat.eq_of_testBit_eq
  intro i
  simp [Bool.and_or_distrib_right]

theorem disjointMasks_index (tbl : List IRQ) (h : DisjointMasks tbl) (i j : Nat) (a b : IRQ)
    (hij : i ≠ j) (ha : tbl[i]? = some a) (hb : tbl[j]? = some b)
    (hau : a.used = true) (hbu : b.used = true) : a.irq_mask &&& b.irq_mask = 0 := by
  unfold DisjointMasks usedSlots at h
  have hfun : IRQ.used = fun t => decide (t.used = true) := by funext t; simp
  rw [hfun, List.pairwise_filter, List.pairwise_iff_getElem] at h
  obtain ⟨hi, rfl⟩ := List.getElem?_eq_some.mp ha
  obtain ⟨hj, rfl⟩ := List.getElem?_eq_some.mp hb
  rcases Nat.lt_or_gt_of_ne hij with hlt | hgt
  · exact h i j hi hj hlt hau hbu
  · rw [Nat.and_comm]; exact h j i hj hi hgt hbu hau

theorem split_take_drop (tbl U Z : List IRQ) (h : tbl = U ++ Z) :
    tbl.take U.length = U ∧ tbl.drop U.length = Z := by
  subst h; simp

/-! ## The claims -/

/-- C1: in a state satisfying invariants 1-5, an accepted `irqAddHandler` that
finds no Used slot with the same priority and handler produces a table whose
Used slots are the former Used slots with the new entry
`{irq_mask = irqs & 0x3FFF, priority, handler = func}` inserted right after the
slots of priority at most `priority`, that is immediately before the first Used
slot of strictly greater priority, or at the end when there is none.  Nothing is
lost or reordered. -/
theorem add_inserts_by_priority (irqs func priority : Nat) (s : State) (hinv : Inv s)
    (hp : priority < 65536) (h1 : irqs &&& 0x3FFF ≠ 0) (h2 : func ≠ 0)
    (h3 : s.IRQS_IN_TABLE &&& (irqs &&& 0x3FFF) = 0)
    (hne : ∀ t ∈ usedSlots s.IRQ_TABLE, ¬ (t.priority = priority ∧ t.func = func)) :
    ∃ s1 e, irqAddHandler irqs func priority s = some s1 ∧
      e.irq_mask = irqs &&& 0x3FFF ∧ e.priority = priority ∧ e.func = func ∧
      usedSlots s1.IRQ_TABLE =
        (usedSlots s.IRQ_TABLE).takeWhile (fun t => decide (t.priority ≤ priority)) ++
          e :: (usedSlots s.IRQ_TABLE).dropWhile (fun t => decide (t.priority ≤ priority)) ∧
      (∀ t ∈ (usedSlots s.IRQ_TABLE).takeWhile (fun t => decide (t.priority ≤ priority)),
        t.priority ≤ priority) ∧
      (∀ t ∈ (usedSlots s.IRQ_TABLE).dropWhile (fun t => decide (t.priority ≤ priority)),
        priority < t.priority) := by
  have hm16 : irqs &&& 0x3FFF < 65536 := by rw [and_3fff]; omega
  obtain ⟨tail, he, hun, _, _⟩ := irqAddHandler_shape irqs func priority s hinv hp h1 h2 h3
  have hU : ∀ u ∈ usedSlots s.IRQ_TABLE, u.used = true := fun u hu => by
    unfold usedSlots at hu; exact (List.mem_filter.mp hu).2
  have hA := addUsed_all_used (irqs &&& 0x3FFF) func priority hm16 h1 _ hU
  refine ⟨_, newSlot (irqs &&& 0x3FFF) func priority, he, newSlot_irq_mask _ _ _ hm16,
    newSlot_priority _ _ _ hm16 hp, rfl, ?_, ?_, ?_⟩
  · show usedSlots (_ ++ tail) = _
    rw [usedSlots_append_unused _ tail hA hun, addUsed_no_eligible _ _ _ _ hne]
  · intro t ht
    simpa using List.mem_takeWhile_imp ht
  · exact dropWhile_priority_gt priority _ hinv.2.2.1

/-- Instance of C1: adding `(0x0002, handler 2, priority 3)` to the table holding
`{0x0001, prio 5, handler 1}`. -/
theorem add_inserts_by_priority_witness :
    ∃ s1 e, irqAddHandler 0x0002 2 3 oneEntry = some s1 ∧
      e.irq_mask = 0x0002 &&& 0x3FFF ∧ e.priority = 3 ∧ e.func = 2 ∧
      usedSlots s1.IRQ_TABLE =
        (usedSlots oneEntry.IRQ_TABLE).takeWhile (fun t => decide (t.priority ≤ 3)) ++
          e :: (usedSlots oneEntry.IRQ_TABLE).dropWhile (fun t => decide (t.priority ≤ 3)) ∧
      (∀ t ∈ (usedSlots oneEntry.IRQ_TABLE).takeWhile (fun t => decide (t.priority ≤ 3)),
        t.priority ≤ 3) ∧
      (∀ t ∈ (usedSlots oneEntry.IRQ_TABLE).dropWhile (fun t => decide (t.priority ≤ 3)),
        3 < t.priority) :=
  add_inserts_by_priority 0x0002 2 3 oneEntry (by decide) (by decide) (by decide) (by decide)
    (by decide) (by decide)

/-- C2: in a state satisfying invariants 1-5, for a non-null handler and two masks
that are non-zero after masking, disjoint from each other and from the claimed
sources, `irqAddHandler x1` followed by `irqAddHandler x2` (same handler and
priority) ends in the same state, table and cache alike, as the single call
`irqAddHandler (x1 | x2)`. -/
theorem add_twice_eq_add_union (x1 x2 func priority : Nat) (s : State) (hinv : Inv s)
    (hp : priority < 65536) (hf : func ≠ 0)
    (h1 : x1 &&& 0x3FFF ≠ 0) (h2 : x2 &&& 0x3FFF ≠ 0)
    (h12 : (x1 &&& 0x3FFF) &&& (x2 &&& 0x3FFF) = 0)
    (hc1 : s.IRQS_IN_TABLE &&& (x1 &&& 0x3FFF) = 0)
    (hc2 : s.IRQS_IN_TABLE &&& (x2 &&& 0x3FFF) = 0) :
    ∃ s1 s2, irqAddHandler x1 func priority s = some s1 ∧
      irqAddHandler x2 func priority s1 = some s2 ∧
      irqAddHandler (x1 ||| x2) func priority s = some s2 := by
  have hm1 : x1 &&& 0x3FFF < 65536 := by rw [and_3fff]; omega
  have hm2 : x2 &&& 0x3FFF < 65536 := by rw [and_3fff]; omega
  have hlen := hinv.1
  have hu0 : (x1 ||| x2) &&& 0x3FFF ≠ 0 := by
    rw [or_and_3fff]; exact or_ne_zero_right _ _ h2
  have huc : s.IRQS_IN_TABLE &&& ((x1 ||| x2) &&& 0x3FFF) = 0 := by
    rw [or_and_3fff, Nat.and_comm, or_and_eq_zero, Nat.and_comm, Nat.and_comm (x2 &&& 0x3FFF)]
    exact ⟨hc1, hc2⟩
  obtain ⟨tail, he, _, _, _⟩ := irqAddHandler_shape x1 func priority s hinv hp h1 hf hc1
  obtain ⟨tail3, he3, _, _, _⟩ :=
    irqAddHandler_shape (x1 ||| x2) func priority s hinv hp hu0 hf huc
  have ha1 := irqAddHandler_accepted x1 func priority s hlen h1 hf hc1
  have ha3 := irqAddHandler_accepted (x1 ||| x2) func priority s hlen hu0 hf huc
  cases hr1 : addList (x1 &&& 0x3FFF) func priority s.IRQ_TABLE with
  | none => rw [he, hr1] at ha1; cases ha1
  | some r1 =>
    cases hr3 : addList ((x1 ||| x2) &&& 0x3FFF) func priority s.IRQ_TABLE with
    | none => rw [he3, hr3] at ha3; cases ha3
    | some r3 =>
      have hlen1 : r1.length = N_IRQ := by
        rw [addList_length _ _ _ _ _ hr1]; exact hlen
      have hc12 : (s.IRQS_IN_TABLE ||| (x1 &&& 0x3FFF)) &&& (x2 &&& 0x3FFF) = 0 :=
        (or_and_eq_zero _ _ _).mpr ⟨hc2, h12⟩
      have ha2 := irqAddHandler_accepted x2 func priority
        { IRQ_TABLE := r1, IRQS_IN_TABLE := s.IRQS_IN_TABLE ||| (x1 &&& 0x3FFF),
          REG_IME := s.REG_IME } hlen1 h2 hf hc12
      have htw := addList_twice (x1 &&& 0x3FFF) (x2 &&& 0x3FFF) func priority hm1 hm2 hp
        s.IRQ_TABLE r1 hr1
      rw [← or_and_3fff, hr3] at htw
      rw [hr1] at ha1
      rw [hr3] at ha3
      refine ⟨{ IRQ_TABLE := r1, IRQS_IN_TABLE := s.IRQS_IN_TABLE ||| (x1 &&& 0x3FFF),
                REG_IME := s.REG_IME },
              { IRQ_TABLE := r3, IRQS_IN_TABLE := s.IRQS_IN_TABLE ||| ((x1 ||| x2) &&& 0x3FFF),
                REG_IME := s.REG_IME }, ha1, ?_, ha3⟩
      rw [ha2]
      simp only [htw, Option.map_some', Nat.or_assoc, or_and_3fff]

/-- Instance of C2: scenario 2 of the specification, `add(0x0001, A, 5)` then
`add(0x0002, A, 5)` on the empty table. -/
theorem add_twice_eq_add_union_witness :
    ∃ s1 s2, irqAddHandler 0x0001 1 5 (emptyState 1) = some s1 ∧
      irqAddHandler 0x0002 1 5 s1 = some s2 ∧
      irqAddHandler (0x0001 ||| 0x0002) 1 5 (emptyState 1) = some s2 :=
  add_twice_eq_add_union 0x0001 0x0002 1 5 (emptyState 1) (by decide) (by decide) (by decide)
    (by decide) (by decide) (by decide) (by decide) (by decide)

/-- C3: for every state, when the masked `irqs` is zero, or `func` is null, or the
masked `irqs` shares a bit with `IRQS_IN_TABLE`, `irqAddHandler` returns the state
it was given: every slot, the cache (and IME) are unchanged. -/
theorem add_rejected_noop (irqs func priority : Nat) (s : State)
    (h : irqs &&& 0x3FFF = 0 ∨ func = 0 ∨ (irqs &&& 0x3FFF) &&& s.IRQS_IN_TABLE ≠ 0) :
    irqAddHandler irqs func priority s = some s := by
  apply irqAddHandler_rejected
  rw [Nat.and_comm s.IRQS_IN_TABLE]
  exact h

/-- Instance of C3: scenario 7 of the specification, `add(0x4000, A, 5)`. -/
theorem add_rejected_noop_witness :
    (0x4000 &&& 0x3FFF = 0 ∨ 1 = 0 ∨ (0x4000 &&& 0x3FFF) &&& oneEntry.IRQS_IN_TABLE ≠ 0) ∧
      irqAddHandler 0x4000 1 5 oneEntry = some oneEntry :=
  ⟨by decide, add_rejected_noop 0x4000 1 5 oneEntry (by decide)⟩

/-- C4: in a state satisfying invariants 1-5, every call of `irqAddHandler`
completes, and afterwards any two distinct Used slots have disjoint IRQ masks. -/
theorem add_keeps_masks_disjoint (irqs func priority : Nat) (s : State) (hinv : Inv s)
    (hp : priority < 65536) :
    ∃ s1, irqAddHandler irqs func priority s = some s1 ∧
      ∀ (i j : Nat) (a b : IRQ), i ≠ j → s1.IRQ_TABLE[i]? = some a →
        s1.IRQ_TABLE[j]? = some b → a.used = true → b.used = true →
        a.irq_mask &&& b.irq_mask = 0 := by
  obtain ⟨s1, he, hinv1⟩ := irqAddHandler_inv irqs func priority s hinv hp
  exact ⟨s1, he, fun i j a b hij ha hb hau hbu =>
    disjointMasks_index s1.IRQ_TABLE hinv1.2.2.2.1 i j a b hij ha hb hau hbu⟩

/-- Instance of C4 on the table holding one entry. -/
theorem add_keeps_masks_disjoint_witness :
    ∃ s1, irqAddHandler 0x0006 2 3 oneEntry = some s1 ∧
      ∀ (i j : Nat) (a b : IRQ), i ≠ j → s1.IRQ_TABLE[i]? = some a →
        s1.IRQ_TABLE[j]? = some b → a.used = true → b.used = true →
        a.irq_mask &&& b.irq_mask = 0 :=
  add_keeps_masks_disjoint 0x0006 2 3 oneEntry (by decide) (by decide)

/-- C5: in a state satisfying invariants 1-5, every call of `irqAddHandler`
completes, and afterwards the Used slots are in non-decreasing order of
priority (the upper 16 bits of the data word). -/
theorem add_keeps_priority_order (irqs func priority : Nat) (s : State) (hinv : Inv s)
    (hp : priority < 65536) :
    ∃ s1, irqAddHandler irqs func priority s = some s1 ∧
      (usedSlots s1.IRQ_TABLE).Pairwise (fun a b => a.data >>> 16 ≤ b.data >>> 16) := by
  obtain ⟨s1, he, hinv1⟩ := irqAddHandler_inv irqs func priority s hinv hp
  exact ⟨s1, he, hinv1.2.2.1⟩

/-- Instance of C5: scenario 3 of the specification. -/
theorem add_keeps_priority_order_witness :
    ∃ s1, irqAddHandler 0x0002 2 3 oneEntry = some s1 ∧
      (usedSlots s1.IRQ_TABLE).Pairwise (fun a b => a.data >>> 16 ≤ b.data >>> 16) :=
  add_keeps_priority_order 0x0002 2 3 oneEntry (by decide) (by decide)

/-- C6: in a state satisfying invariants 1-5, every call of `irqAddHandler`
completes, and afterwards `IRQS_IN_TABLE` is the bitwise OR of the IRQ masks of
the Used slots. -/
theorem add_keeps_cache_exact (irqs func priority : Nat) (s : State) (hinv : Inv s)
    (hp : priority < 65536) :
    ∃ s1, irqAddHandler irqs func priority s = some s1 ∧
      s1.IRQS_IN_TABLE = orMasks (usedSlots s1.IRQ_TABLE) := by
  obtain ⟨s1, he, hinv1⟩ := irqAddHandler_inv irqs func priority s hinv hp
  exact ⟨s1, he, hinv1.2.2.2.2.2⟩

/-- Instance of C6: a merge into the existing entry. -/
theorem add_keeps_cache_exact_witness :
    ∃ s1, irqAddHandler 0x0002 1 5 oneEntry = some s1 ∧
      s1.IRQS_IN_TABLE = orMasks (usedSlots s1.IRQ_TABLE) :=
  add_keeps_cache_exact 0x0002 1 5 oneEntry (by decide) (by decide)

/-- C7: in a state satisfying invariants 1-5, every call of `irqAddHandler`
completes with a table of 14 slots split at some index `k`: the slots before `k`
are all Used and the slots from `k` on are all Unused. -/
theorem add_keeps_used_contiguous (irqs func priority : Nat) (s : State) (hinv : Inv s)
    (hp : priority < 65536) :
    ∃ s1 k, irqAddHandler irqs func priority s = some s1 ∧ s1.IRQ_TABLE.length = 14 ∧
      (∀ t ∈ s1.IRQ_TABLE.take k, t.irq_mask ≠ 0) ∧
      (∀ t ∈ s1.IRQ_TABLE.drop k, t.irq_mask = 0) := by
  obtain ⟨s1, he, hinv1⟩ := irqAddHandler_inv irqs func priority s hinv hp
  obtain ⟨Z, hsplit, hZ⟩ := usedPrefix_split s1.IRQ_TABLE hinv1.2.1
  obtain ⟨htake, hdrop⟩ := split_take_drop _ _ _ hsplit
  refine ⟨s1, (usedSlots s1.IRQ_TABLE).length, he, hinv1.1, ?_, ?_⟩
  · intro t ht
    rw [htake] at ht
    unfold usedSlots at ht
    exact (used_iff t).mp (List.mem_filter.mp ht).2
  · intro t ht
    rw [hdrop] at ht
    have := hZ t ht
    simpa [IRQ.used] using this

/-- Instance of C7: an insertion in front of the existing entry. -/
theorem add_keeps_used_contiguous_witness :
    ∃ s1 k, irqAddHandler 0x0002 2 3 oneEntry = some s1 ∧ s1.IRQ_TABLE.length = 14 ∧
      (∀ t ∈ s1.IRQ_TABLE.take k, t.irq_mask ≠ 0) ∧
      (∀ t ∈ s1.IRQ_TABLE.drop k, t.irq_mask = 0) :=
  add_keeps_used_contiguous 0x0002 2 3 oneEntry (by decide) (by decide)

/-- In a 14-slot table whose slots all have bits 14 and 15 of the IRQ mask clear:
the call completes whenever some slot is Unused, and whenever it completes every
slot still has bits 14 and 15 of its IRQ mask clear and `IRQS_IN_TABLE` has
gained no bit outside 0..13. -/
theorem irqAddHandler_mask_bits (irqs func priority : Nat) (s : State)
    (hlen : s.IRQ_TABLE.length = N_IRQ)
    (hbits : ∀ t ∈ s.IRQ_TABLE,
      t.irq_mask.testBit 14 = false ∧ t.irq_mask.testBit 15 = false) :
    ((∃ t ∈ s.IRQ_TABLE, t.irq_mask = 0) →
      ∃ s1, irqAddHandler irqs func priority s = some s1) ∧
    ∀ s1, irqAddHandler irqs func priority s = some s1 →
      (∀ t ∈ s1.IRQ_TABLE, t.irq_mask.testBit 14 = false ∧ t.irq_mask.testBit 15 = false) ∧
      (∀ b, 14 ≤ b → s1.IRQS_IN_TABLE.testBit b = true → s.IRQS_IN_TABLE.testBit b = true) := by
  have hm : irqs &&& 0x3FFF < 16384 := by rw [and_3fff]; omega
  by_cases hrej : irqs &&& 0x3FFF = 0 ∨ func = 0 ∨ s.IRQS_IN_TABLE &&& (irqs &&& 0x3FFF) ≠ 0
  · have he := irqAddHandler_rejected irqs func priority s hrej
    refine ⟨fun _ => ⟨s, he⟩, ?_⟩
    intro s1 h1
    rw [he] at h1
    cases h1
    exact ⟨hbits, fun _ _ h => h⟩
  · have h1 : irqs &&& 0x3FFF ≠ 0 := fun h => hrej (Or.inl h)
    have h2 : func ≠ 0 := fun h => hrej (Or.inr (Or.inl h))
    have h3 : s.IRQS_IN_TABLE &&& (irqs &&& 0x3FFF) = 0 := by
      by_contra h; exact hrej (Or.inr (Or.inr h))
    have he := irqAddHandler_accepted irqs func priority s hlen h1 h2 h3
    constructor
    · rintro ⟨t, ht, ht0⟩
      obtain ⟨r, hr⟩ := addList_some_of_unused (irqs &&& 0x3FFF) func priority s.IRQ_TABLE
        ⟨t, ht, by simp [IRQ.used, ht0]⟩
      rw [he, hr]
      exact ⟨_, rfl⟩
    · intro s1 hs1
      rw [he] at hs1
      cases hr : addList (irqs &&& 0x3FFF) func priority s.IRQ_TABLE with
      | none => rw [hr] at hs1; cases hs1
      | some r =>
        rw [hr] at hs1
        cases hs1
        constructor
        · intro x hx
          rw [maskBits_iff]
          rcases mem_addList _ _ _ _ r hr x hx with h | h | ⟨t, ht, h⟩
          · exact (maskBits_iff x).mp (hbits x h)
          · rw [h]; exact newSlot_maskBits _ _ _ hm
          · rw [h]; exact mergeSlot_maskBits _ t hm ((maskBits_iff t).mp (hbits t ht))
        · intro b hb h
          simp only [Nat.testBit_or, Bool.or_eq_true] at h
          rcases h with h | h
          · exact h
          · have : (irqs &&& 0x3FFF).testBit b = false := by
              apply Nat.testBit_lt_two_pow
              calc irqs &&& 0x3FFF < 2 ^ 14 := hm
                _ ≤ 2 ^ b := Nat.pow_le_pow_right (by decide) hb
            rw [this] at h
            cases h

/-- The call returns in every 14-slot state that has an Unused slot or satisfies
invariants 1-5: with an Unused slot the scan stops there at the latest, and a
table of 14 Used slots satisfying the invariants rejects every request. -/
theorem irqAddHandler_returns (irqs func priority : Nat) (s : State)
    (hlen : s.IRQ_TABLE.length = N_IRQ)
    (h : (∃ t ∈ s.IRQ_TABLE, t.irq_mask = 0) ∨ Inv s) :
    ∃ s1, irqAddHandler irqs func priority s = some s1 := by
  by_cases hrej : irqs &&& 0x3FFF = 0 ∨ func = 0 ∨ s.IRQS_IN_TABLE &&& (irqs &&& 0x3FFF) ≠ 0
  · exact ⟨s, irqAddHandler_rejected irqs func priority s hrej⟩
  · have h1 : irqs &&& 0x3FFF ≠ 0 := fun h => hrej (Or.inl h)
    have h2 : func ≠ 0 := fun h => hrej (Or.inr (Or.inl h))
    have h3 : s.IRQS_IN_TABLE &&& (irqs &&& 0x3FFF) = 0 := by
      by_contra h; exact hrej (Or.inr (Or.inr h))
    have hm : irqs &&& 0x3FFF < 16384 := by rw [and_3fff]; omega
    have hun : ∃ t ∈ s.IRQ_TABLE, t.used = false := by
      rcases h with ⟨t, ht, ht0⟩ | hinv
      · exact ⟨t, ht, by simp [IRQ.used, ht0]⟩
      · by_contra hno
        have hall : ∀ t ∈ s.IRQ_TABLE, t.used = true := by
          intro t ht
          by_contra htu
          exact hno ⟨t, ht, by simpa using htu⟩
        have hfull : usedSlots s.IRQ_TABLE = s.IRQ_TABLE := by
          unfold usedSlots
          exact List.filter_eq_self.mpr hall
        have hcnt := used_length_le (usedSlots s.IRQ_TABLE) (irqs &&& 0x3FFF)
          (inv_used_masks s hinv) hinv.2.2.2.1 h1 hm (by rw [← hinv.2.2.2.2.2]; exact h3)
        rw [hfull, hinv.1] at hcnt
        simp only [N_IRQ] at hcnt
        omega
    obtain ⟨r, hr⟩ := addList_some_of_unused (irqs &&& 0x3FFF) func priority s.IRQ_TABLE hun
    rw [irqAddHandler_accepted irqs func priority s hlen h1 h2 h3, hr]
    exact ⟨_, rfl⟩

/-- C8 does not hold as stated: the 14-slot table `brokenCacheTable` has bits 14
and 15 of every mask clear, yet the request `(0xC001, 20, 99)` is not rejected
(the cache claims nothing), no slot stops the scan, and the call reads slot 14:
there is no state after the call. -/
theorem add_runs_off_table :
    brokenCacheTable.IRQ_TABLE.length = 14 ∧
      (∀ t ∈ brokenCacheTable.IRQ_TABLE,
        t.irq_mask.testBit 14 = false ∧ t.irq_mask.testBit 15 = false) ∧
      irqAddHandler 0xC001 20 99 brokenCacheTable = none := by
  decide

/-- C8, amended: in a 14-slot table whose slots all have bits 14 and 15 of the IRQ
mask clear and which has an Unused slot or satisfies invariants 1-5, for every
`(irqs, func, priority)`, also with bit 14 or 15 set in `irqs`: the call returns,
afterwards every slot still has bits 14 and 15 of its IRQ mask clear, and
`IRQS_IN_TABLE` has gained no bit outside 0..13. -/
theorem add_keeps_mask_bits (irqs func priority : Nat) (s : State)
    (hlen : s.IRQ_TABLE.length = N_IRQ)
    (hbits : ∀ t ∈ s.IRQ_TABLE,
      t.irq_mask.testBit 14 = false ∧ t.irq_mask.testBit 15 = false)
    (hstop : (∃ t ∈ s.IRQ_TABLE, t.irq_mask = 0) ∨ Inv s) :
    ∃ s1, irqAddHandler irqs func priority s = some s1 ∧
      (∀ t ∈ s1.IRQ_TABLE, t.irq_mask.testBit 14 = false ∧ t.irq_mask.testBit 15 = false) ∧
      (∀ b, 14 ≤ b → s1.IRQS_IN_TABLE.testBit b = true → s.IRQS_IN_TABLE.testBit b = true) := by
  obtain ⟨s1, he⟩ := irqAddHandler_returns irqs func priority s hlen hstop
  exact ⟨s1, he, (irqAddHandler_mask_bits irqs func priority s hlen hbits).2 s1 he⟩

/-- Instance of the amended C8: a request with bits 14 and 15 set in `irqs`, on
the table holding one entry. -/
theorem add_keeps_mask_bits_witness :
    ∃ s1, irqAddHandler 0xC002 2 3 oneEntry = some s1 ∧
      (∀ t ∈ s1.IRQ_TABLE, t.irq_mask.testBit 14 = false ∧ t.irq_mask.testBit 15 = false) ∧
      (∀ b, 14 ≤ b → s1.IRQS_IN_TABLE.testBit b = true →
        oneEntry.IRQS_IN_TABLE.testBit b = true) :=
  add_keeps_mask_bits 0xC002 2 3 oneEntry (by decide) (by decide) (Or.inl (by decide))

theorem addUsed_survives (m f p : Nat) : ∀ (U : List IRQ) (t : IRQ), t ∈ U →
    t ∈ addUsed m f p U ∨ mergeSlot m t ∈ addUsed m f p U := by
  intro U
  induction U with
  | nil => intro t ht; cases ht
  | cons u rest ih =>
    intro t ht
    rw [addUsed_cons]
    split
    · rcases List.mem_cons.mp ht with h | h
      · exact Or.inr (h ▸ List.mem_cons_self _ _)
      · exact Or.inl (List.mem_cons_of_mem _ h)
    · split
      · exact Or.inl (List.mem_cons_of_mem _ ht)
      · rcases List.mem_cons.mp ht with h | h
        · exact Or.inl (h ▸ List.mem_cons_self _ _)
        · rcases ih t h with h | h
          · exact Or.inl (List.mem_cons_of_mem _ h)
          · exact Or.inr (List.mem_cons_of_mem _ h)

/-- C9: in a state satisfying invariants 1-5 every call of `irqAddHandler`
completes without touching a slot outside indices 0..13 (the embedding yields
`none` as soon as the scan reads index 14 or a write leaves the table), the
table keeps its 14 slots, every formerly Used slot is still present (as it was,
or with the new bits merged in), and when all 14 slots are Used the call is
rejected: the state is returned unchanged. -/
theorem add_scan_stays_in_table (irqs func priority : Nat) (s : State) (hinv : Inv s)
    (hp : priority < 65536) :
    ∃ s1, irqAddHandler irqs func priority s = some s1 ∧ s1.IRQ_TABLE.length = 14 ∧
      (∀ t ∈ s.IRQ_TABLE, t.irq_mask ≠ 0 →
        t ∈ s1.IRQ_TABLE ∨
          ({ t with data := t.data ||| (irqs &&& 0x3FFF) } : IRQ) ∈ s1.IRQ_TABLE) ∧
      ((∀ t ∈ s.IRQ_TABLE, t.irq_mask ≠ 0) → s1 = s) := by
  by_cases hrej : irqs &&& 0x3FFF = 0 ∨ func = 0 ∨ s.IRQS_IN_TABLE &&& (irqs &&& 0x3FFF) ≠ 0
  · exact ⟨s, irqAddHandler_rejected irqs func priority s hrej, hinv.1,
      fun t ht _ => Or.inl ht, fun _ => rfl⟩
  · have h1 : irqs &&& 0x3FFF ≠ 0 := fun h => hrej (Or.inl h)
    have h2 : func ≠ 0 := fun h => hrej (Or.inr (Or.inl h))
    have h3 : s.IRQS_IN_TABLE &&& (irqs &&& 0x3FFF) = 0 := by
      by_contra h; exact hrej (Or.inr (Or.inr h))
    have hm : irqs &&& 0x3FFF < 16384 := by rw [and_3fff]; omega
    obtain ⟨tail, he, _, _, hl⟩ := irqAddHandler_shape irqs func priority s hinv hp h1 h2 h3
    refine ⟨_, he, hl, ?_, ?_⟩
    · intro t ht ht0
      have htu : t ∈ usedSlots s.IRQ_TABLE := by
        unfold usedSlots
        exact List.mem_filter.mpr ⟨ht, (used_iff t).mpr ht0⟩
      rcases addUsed_survives (irqs &&& 0x3FFF) func priority _ t htu with h | h
      · exact Or.inl (List.mem_append_left _ h)
      · exact Or.inr (List.mem_append_left _ h)
    · intro hall
      exfalso
      have hfull : usedSlots s.IRQ_TABLE = s.IRQ_TABLE := by
        unfold usedSlots
        exact List.filter_eq_self.mpr (fun t ht => (used_iff t).mpr (hall t ht))
      have hcnt := used_length_le (usedSlots s.IRQ_TABLE) (irqs &&& 0x3FFF)
        (inv_used_masks s hinv) hinv.2.2.2.1 h1 hm (by rw [← hinv.2.2.2.2.2]; exact h3)
      rw [hfull, hinv.1] at hcnt
      simp only [N_IRQ] at hcnt
      omega

/-- Instance of C9: a request on a table whose 14 slots are all Used. -/
theorem add_scan_stays_in_table_witness :
    ∃ s1, irqAddHandler 0x0001 20 99 fullTable = some s1 ∧ s1.IRQ_TABLE.length = 14 ∧
      (∀ t ∈ fullTable.IRQ_TABLE, t.irq_mask ≠ 0 →
        t ∈ s1.IRQ_TABLE ∨
          ({ t with data := t.data ||| (0x0001 &&& 0x3FFF) } : IRQ) ∈ s1.IRQ_TABLE) ∧
      ((∀ t ∈ fullTable.IRQ_TABLE, t.irq_mask ≠ 0) → s1 = fullTable) :=
  add_scan_stays_in_table 0x0001 20 99 fullTable (by decide) (by decide)

/-- C10 (the code departs from the claim): scenario 5 of the specification.  After
`add(0x0003, A, 5)` the call `remove(0x0001)` finds slot 0, clears the bit in its
local copy only and returns: slot 0 still holds mask `0x0003` and
`IRQS_IN_TABLE` is still `0x0003`, where the claim requires mask `0x0002`. -/
theorem remove_partial_not_stored :
    irqAddHandler 0x0003 1 5 (emptyState 1) = some twoSources ∧ Inv twoSources ∧
      irqRemoveHandler 0x0001 twoSources = some twoSources ∧
      twoSources.IRQ_TABLE.head? = some { data := 0x50003, func := 1 } ∧
      ({ data := 0x50003, func := 1 } : IRQ).irq_mask = 0x0003 ∧
      0x0003 &&& (0xFFFF ^^^ 0x0001) = 0x0002 := by
  decide

/-! ## `irqRemoveHandler` -/

theorem irqFindEntry_loop_bound (irqs : Nat) : ∀ (l : List IRQ) (k i : Nat),
    irqFindEntry_loop irqs l k = some (some i) → k ≤ i ∧ i < k + l.length := by
  intro l
  induction l with
  | nil => intro k i h; cases h
  | cons t rest ih =>
    intro k i h
    unfold irqFindEntry_loop at h
    split at h
    · cases h
    · split at h
      · cases h
        simp
      · have := ih (k + 1) i h
        simp only [List.length_cons]
        omega

/-- Both removal models leave `IRQS_IN_TABLE` alone and restore `REG_IME`. -/
theorem irqRemoveHandler_past_frame (past : IRQ) (irqs : Nat) (s s1 : State)
    (h : irqRemoveHandler_past past irqs s = some s1) :
    s1.IRQS_IN_TABLE = s.IRQS_IN_TABLE ∧ s1.REG_IME = s.REG_IME := by
  unfold irqRemoveHandler_past irqDisableIME at h
  simp only at h
  split at h
  · cases h
  · cases h; exact ⟨rfl, rfl⟩
  · split at h
    · cases h
    · split at h
      · rename_i i _ _ t _ _
        cases hm : memmove_past past s.IRQ_TABLE i (i + 1)
            ((sizeof_IRQ_TABLE + 2 ^ 32 - i * sizeof_IRQ) % 2 ^ 32) with
        | none => rw [hm] at h; cases h
        | some tbl => rw [hm] at h; cases h; exact ⟨rfl, rfl⟩
      · cases h; exact ⟨rfl, rfl⟩

/-- The deletion shift of `irqRemoveHandler` always reads slot 14. -/
theorem memmove_delete_none (tbl : List IRQ) (i : Nat) (hi : i < N_IRQ) :
    memmove tbl i (i + 1) ((sizeof_IRQ_TABLE + 2 ^ 32 - i * sizeof_IRQ) % 2 ^ 32) = none := by
  simp only [N_IRQ] at hi
  have hb : (sizeof_IRQ_TABLE + 2 ^ 32 - i * sizeof_IRQ) % 2 ^ 32 / sizeof_IRQ = 14 - i := by
    simp only [sizeof_IRQ_TABLE, sizeof_IRQ, N_IRQ]; omega
  unfold memmove
  simp only [hb, N_IRQ]
  rw [if_neg (by omega)]

theorem memmove_past_delete_some (past : IRQ) (tbl : List IRQ) (i : Nat) (hi : i < N_IRQ) :
    ∃ r, memmove_past past tbl i (i + 1)
      ((sizeof_IRQ_TABLE + 2 ^ 32 - i * sizeof_IRQ) % 2 ^ 32) = some r := by
  simp only [N_IRQ] at hi
  have hb : (sizeof_IRQ_TABLE + 2 ^ 32 - i * sizeof_IRQ) % 2 ^ 32 / sizeof_IRQ = 14 - i := by
    simp only [sizeof_IRQ_TABLE, sizeof_IRQ, N_IRQ]; omega
  unfold memmove_past
  simp only [hb, N_IRQ]
  rw [if_pos (by omega)]
  exact ⟨_, rfl⟩

/-- With the memory after the table readable, `irqRemoveHandler` returns whenever
the search of `irqFindEntry` ends inside the table. -/
theorem irqRemoveHandler_past_returns (past : IRQ) (irqs : Nat) (s : State)
    (hlen : s.IRQ_TABLE.length = N_IRQ) (hf : irqFindEntry irqs s ≠ none) :
    ∃ s1, irqRemoveHandler_past past irqs s = some s1 := by
  unfold irqRemoveHandler_past irqDisableIME
  simp only
  have hfe : irqFindEntry irqs { s with REG_IME := 0 } = irqFindEntry irqs s := rfl
  rw [hfe]
  cases hfind : irqFindEntry irqs s with
  | none => exact absurd hfind hf
  | some r =>
    cases r with
    | none => exact ⟨_, rfl⟩
    | some i =>
      have hb := irqFindEntry_loop_bound irqs s.IRQ_TABLE 0 i hfind
      have hi : i < s.IRQ_TABLE.length := by omega
      simp only [List.getElem?_eq_getElem hi]
      split
      · obtain ⟨r, hr⟩ := memmove_past_delete_some past s.IRQ_TABLE i (by rw [← hlen]; exact hi)
        rw [hr]
        exact ⟨_, rfl⟩
      · exact ⟨_, rfl⟩

/-- C11 (the code departs from the claim): scenario 6 of the specification.  After
`add(0x0001, 1, 5); add(0x0002, 2, 7)` the call `remove(0x0001)` empties slot 0
and shifts with `bytes = sizeof(IRQ_TABLE) - 0`, that is 14 slots starting at
slot 1: slot 14, outside the table, is read.  Where that memory is readable and
holds a Used entry, slot 13 ends up Used with that entry instead of Unused. -/
theorem remove_emptied_reads_past_table :
    addSeq [(0x0001, 1, 5), (0x0002, 2, 7)] (emptyState 1) = some twoEntries ∧
      Inv twoEntries ∧
      irqFindEntry 0x0001 twoEntries = some (some 0) ∧
      irqRemoveHandler 0x0001 twoEntries = none ∧
      (irqRemoveHandler_past { data := 0x90100, func := 9 } 0x0001 twoEntries).map
        (fun s => (s.IRQ_TABLE[0]?, s.IRQ_TABLE[13]?)) =
        some (some { data := 0x70002, func := 2 }, some { data := 0x90100, func := 9 }) := by
  decide

/-- C12 (the code departs from the claim): scenario 5 of the specification.
`remove(0x0001)` overlaps the entry of mask `0x0003`; the claim requires
`IRQS_IN_TABLE` to become `0x0003 & ~0x0001 = 0x0002`, but the call returns with
`IRQS_IN_TABLE` still `0x0003`: `irqRemoveHandler` never assigns it. -/
theorem remove_leaves_cache :
    Inv twoSources ∧
      (irqRemoveHandler 0x0001 twoSources).map State.IRQS_IN_TABLE = some 0x0003 ∧
      twoSources.IRQS_IN_TABLE &&& (0xFFFF ^^^ (0x0001 &&& 0x0003)) = 0x0002 := by
  decide

/-- C13 (the code departs from the claim): on the table built by 14 requests, all
14 slots Used, `remove(0x4000)` and `remove(0)` overlap no slot; `irqFindEntry`
walks all 14 slots without meeting a zero word and reads slot 14.  The same
happens on a table whose Unused slots carry a non-zero priority, since the loop
tests the whole data word. -/
theorem remove_absent_reads_past_table :
    addSeq fullTableCalls (emptyState 1) = some fullTable ∧ Inv fullTable ∧
      (∀ t ∈ fullTable.IRQ_TABLE, t.irq_mask &&& 0x4000 = 0) ∧
      irqRemoveHandler 0x4000 fullTable = none ∧
      irqRemoveHandler 0 fullTable = none ∧
      Inv stalePriorityTable ∧
      (∀ t ∈ stalePriorityTable.IRQ_TABLE, t.irq_mask &&& 0x0002 = 0) ∧
      irqRemoveHandler 0x0002 stalePriorityTable = none := by
  decide

/-- C14 (the code departs from the claim): `add(x, f, p)` followed by `remove(x)`
does not restore the state.  After an inserting add on the empty table the
removal empties the slot and its shift reads slot 14; after a merging add on the
table holding `{0x0001, prio 5, handler 1}` the removal stores nothing, so the
table keeps mask `0x0003` and `IRQS_IN_TABLE` keeps `0x0003`. -/
theorem add_then_remove_not_restored :
    (irqAddHandler 0x0001 1 5 (emptyState 1)).bind (irqRemoveHandler 0x0001) = none ∧
      Inv oneEntry ∧
      (irqAddHandler 0x0002 1 5 oneEntry).bind (irqRemoveHandler 0x0002) = some twoSources ∧
      twoSources ≠ oneEntry := by
  decide

/-- C16: for a 16-bit priority (also at or above `0x8000`) and a mask `m` with
`m = m & 0x3FFF`, the word `w = m | (priority << 16)` taken modulo `2 ^ 32`
satisfies `w & 0xFFFF = m` and `w >> 16 = priority`; and an inserting
`irqAddHandler` leaves in the table a slot with exactly this word and the given
handler, which therefore decodes to the masked `irqs` and the priority. -/
theorem packed_word_decodes (m priority : Nat) (hm : m = m &&& 0x3FFF)
    (hp : priority < 65536) :
    ((m ||| (priority <<< 16)) % 2 ^ 32) &&& 0xFFFF = m ∧
    ((m ||| (priority <<< 16)) % 2 ^ 32) >>> 16 = priority ∧
    ∀ (func : Nat) (s : State), Inv s → m ≠ 0 → func ≠ 0 → s.IRQS_IN_TABLE &&& m = 0 →
      (∀ t ∈ usedSlots s.IRQ_TABLE, ¬ (t.priority = priority ∧ t.func = func)) →
      ∃ s1 e, irqAddHandler m func priority s = some s1 ∧ e ∈ s1.IRQ_TABLE ∧
        e.data = (m ||| (priority <<< 16)) % 2 ^ 32 ∧ e.func = func ∧
        e.irq_mask = m ∧ e.priority = priority := by
  have hm' : m &&& 0x3FFF = m := hm.symm
  have hm16 : m < 65536 := by rw [← hm', and_3fff]; omega
  have hmask := newSlot_irq_mask m 0 priority hm16
  have hprio := newSlot_priority m 0 priority hm16 hp
  refine ⟨hmask, hprio, ?_⟩
  intro func s hinv h0 hf hc hne
  obtain ⟨tail, he, _, _, _⟩ := irqAddHandler_shape m func priority s hinv hp
    (by rw [hm']; exact h0) hf (by rw [hm']; exact hc)
  rw [hm'] at he
  refine ⟨_, newSlot m func priority, he, ?_, rfl, rfl, newSlot_irq_mask m func priority hm16,
    newSlot_priority m func priority hm16 hp⟩
  show newSlot m func priority ∈ addUsed m func priority (usedSlots s.IRQ_TABLE) ++ tail
  rw [addUsed_no_eligible m func priority _ hne]
  simp

/-- Instance of C16 with priority `0xFFFF` on the table holding one entry. -/
theorem packed_word_decodes_witness :
    ((0x0002 ||| (0xFFFF <<< 16)) % 2 ^ 32) &&& 0xFFFF = 0x0002 ∧
    ((0x0002 ||| (0xFFFF <<< 16)) % 2 ^ 32) >>> 16 = 0xFFFF ∧
    ∃ s1 e, irqAddHandler 0x0002 2 0xFFFF oneEntry = some s1 ∧ e ∈ s1.IRQ_TABLE ∧
      e.data = (0x0002 ||| (0xFFFF <<< 16)) % 2 ^ 32 ∧ e.func = 2 ∧
      e.irq_mask = 0x0002 ∧ e.priority = 0xFFFF :=
  ⟨(packed_word_decodes 0x0002 0xFFFF (by decide) (by decide)).1,
   (packed_word_decodes 0x0002 0xFFFF (by decide) (by decide)).2.1,
   (packed_word_decodes 0x0002 0xFFFF (by decide) (by decide)).2.2 2 oneEntry
     (by decide) (by decide) (by decide) (by decide) (by decide)⟩

/-- Slots that are neither merged into nor inserted at are skipped by the scan. -/
theorem addList_skip (m f p : Nat) : ∀ (pre l : List IRQ),
    (∀ u ∈ pre, ¬ (u.data >>> 16 = p ∧ u.func = f) ∧
      ¬ (u.data &&& 0xFFFF = 0 ∨ u.data >>> 16 > p)) →
    addList m f p (pre ++ l) = (addList m f p l).map (pre ++ ·) := by
  intro pre
  induction pre with
  | nil =>
    intro l _
    rw [List.nil_append]
    cases addList m f p l <;> rfl
  | cons u pre ih =>
    intro l h
    have hu := h u (List.mem_cons_self _ _)
    rw [List.cons_append, addList_cons, if_neg hu.1, if_neg hu.2,
      ih l (fun v hv => h v (List.mem_cons_of_mem _ hv))]
    cases addList m f p l <;> rfl

theorem pairwise_usedSlots {R : IRQ → IRQ → Prop} (tbl : List IRQ) :
    (usedSlots tbl).Pairwise R ↔
      tbl.Pairwise (fun a b => a.used = true → b.used = true → R a b) := by
  unfold usedSlots
  have hfun : IRQ.used = fun t => decide (t.used = true) := by funext t; simp
  rw [hfun, List.pairwise_filter]
  simp

theorem split_at_index (tbl : List IRQ) (j : Nat) (t : IRQ) (hj : tbl[j]? = some t) :
    ∃ pre rest, tbl = pre ++ t :: rest ∧ pre.length = j ∧
      ∀ u ∈ pre, ∃ k, k < j ∧ tbl[k]? = some u := by
  obtain ⟨hlt, rfl⟩ := List.getElem?_eq_some.mp hj
  refine ⟨tbl.take j, tbl.drop (j + 1), ?_, ?_, ?_⟩
  · rw [List.getElem_cons_drop, List.take_append_drop]
  · rw [List.length_take]; omega
  · intro u hu
    obtain ⟨k, hk, rfl⟩ := List.getElem_of_mem hu
    have hk2 := hk
    rw [List.length_take] at hk2
    refine ⟨k, by omega, ?_⟩
    rw [List.getElem_take]
    exact List.getElem?_eq_getElem (by omega)

/-- C17: in a state satisfying invariants 1-5, for an accepted request, if slot
`j` is the first Used slot with the same priority and the same handler, the call
returns the table with only slot `j` changed, its data word OR-ed with the
masked `irqs` (so its IRQ mask gains those bits while priority and handler stay),
and `IRQS_IN_TABLE` OR-ed with the masked `irqs`; nothing is shifted. -/
theorem add_merges_into_first_eligible (irqs func priority : Nat) (s : State) (hinv : Inv s)
    (h1 : irqs &&& 0x3FFF ≠ 0) (h2 : func ≠ 0)
    (h3 : s.IRQS_IN_TABLE &&& (irqs &&& 0x3FFF) = 0)
    (j : Nat) (t : IRQ) (hj : s.IRQ_TABLE[j]? = some t)
    (htu : t.irq_mask ≠ 0) (htp : t.priority = priority) (htf : t.func = func)
    (hfirst : ∀ k u, k < j → s.IRQ_TABLE[k]? = some u →
      ¬ (u.irq_mask ≠ 0 ∧ u.priority = priority ∧ u.func = func)) :
    irqAddHandler irqs func priority s = some
      { IRQ_TABLE := s.IRQ_TABLE.set j { data := t.data ||| (irqs &&& 0x3FFF), func := t.func }
        IRQS_IN_TABLE := s.IRQS_IN_TABLE ||| (irqs &&& 0x3FFF)
        REG_IME := s.REG_IME } ∧
    ({ data := t.data ||| (irqs &&& 0x3FFF), func := t.func } : IRQ).irq_mask
      = t.irq_mask ||| (irqs &&& 0x3FFF) ∧
    ({ data := t.data ||| (irqs &&& 0x3FFF), func := t.func } : IRQ).priority
      = t.priority := by
  have hm16 : irqs &&& 0x3FFF < 65536 := by rw [and_3fff]; omega
  refine ⟨?_, mergeSlot_irq_mask _ t hm16, mergeSlot_priority _ t hm16⟩
  obtain ⟨pre, rest, htbl, hlen, hpre⟩ := split_at_index s.IRQ_TABLE j t hj
  have hused : t.used = true := (used_iff t).mpr htu
  have hup : UsedPrefix (pre ++ t :: rest) := htbl ▸ hinv.2.1
  have hso : (pre ++ t :: rest).Pairwise
      (fun a b => a.used = true → b.used = true → a.priority ≤ b.priority) := by
    have := hinv.2.2.1
    unfold SortedByPriority at this
    rw [pairwise_usedSlots, htbl] at this
    exact this
  unfold UsedPrefix at hup
  rw [List.pairwise_append] at hup hso
  have hskip : ∀ u ∈ pre, ¬ (u.data >>> 16 = priority ∧ u.func = func) ∧
      ¬ (u.data &&& 0xFFFF = 0 ∨ u.data >>> 16 > priority) := by
    intro u hu
    have huu : u.used = true := hup.2.2 u hu t (List.mem_cons_self _ _) hused
    have hle : u.priority ≤ t.priority := hso.2.2 u hu t (List.mem_cons_self _ _) huu hused
    obtain ⟨k, hk, hku⟩ := hpre u hu
    constructor
    · intro hmg
      exact hfirst k u hk hku ⟨(used_iff u).mp huu, hmg.1, hmg.2⟩
    · rintro (h | h)
      · rw [← unused_iff] at h; rw [h] at huu; cases huu
      · have : u.priority > priority := h
        omega
  rw [irqAddHandler_accepted irqs func priority s hinv.1 h1 h2 h3, htbl,
    addList_skip _ _ _ pre (t :: rest) hskip, addList_cons, if_pos ⟨htp, htf⟩, ← hlen,
    set_append_length]
  rfl

/-- Instance of C17: a second source for the handler of the only entry. -/
theorem add_merges_into_first_eligible_witness :
    irqAddHandler 0x0002 1 5 oneEntry = some
      { IRQ_TABLE := oneEntry.IRQ_TABLE.set 0
          { data := 0x50001 ||| (0x0002 &&& 0x3FFF), func := 1 }
        IRQS_IN_TABLE := oneEntry.IRQS_IN_TABLE ||| (0x0002 &&& 0x3FFF)
        REG_IME := oneEntry.REG_IME } ∧
    ({ data := 0x50001 ||| (0x0002 &&& 0x3FFF), func := 1 } : IRQ).irq_mask
      = ({ data := 0x50001, func := 1 } : IRQ).irq_mask ||| (0x0002 &&& 0x3FFF) ∧
    ({ data := 0x50001 ||| (0x0002 &&& 0x3FFF), func := 1 } : IRQ).priority
      = ({ data := 0x50001, func := 1 } : IRQ).priority :=
  add_merges_into_first_eligible 0x0002 1 5 oneEntry (by decide) (by decide) (by decide)
    (by decide) 0 { data := 0x50001, func := 1 } (by decide) (by decide) (by decide)
    (by decide) (by intro k u hk; omega)

/-- The scan of the reference algorithm acts on the Used slots like the code. -/
theorem spec_scan_used_append (m f p : Nat) (z : IRQ) (Z : List IRQ) (hz : z.used = false) :
    ∀ U : List IRQ, (∀ u ∈ U, u.used = true) →
      ∃ tail, spec_scan m f p (U ++ z :: Z) = some (addUsed m f p U ++ tail) ∧
        tail.Sublist (z :: Z) := by
  intro U
  induction U with
  | nil =>
    intro _
    refine ⟨(z :: Z).dropLast, ?_, List.dropLast_sublist _⟩
    rw [List.nil_append]
    unfold spec_scan
    rw [if_neg (by unfold spec_eligible; rw [hz]; simp), if_pos (Or.inl hz)]
    rfl
  | cons t rest ih =>
    intro hU
    have ht : t.used = true := hU t (List.mem_cons_self _ _)
    obtain ⟨tail, he, hsub⟩ := ih (fun u hu => hU u (List.mem_cons_of_mem _ hu))
    rw [List.cons_append, addUsed_cons]
    unfold spec_scan
    by_cases hmg : t.data >>> 16 = p ∧ t.func = f
    · rw [if_pos (show spec_eligible t f p from ⟨ht, hmg.1, hmg.2⟩), if_pos hmg]
      exact ⟨z :: Z, rfl, List.Sublist.refl _⟩
    · rw [if_neg (show ¬ spec_eligible t f p from fun h => hmg ⟨h.2.1, h.2.2⟩), if_neg hmg]
      by_cases hgt : t.data >>> 16 > p
      · rw [if_pos (show t.used = false ∨ t.priority > p from Or.inr hgt), if_pos hgt]
        refine ⟨(z :: Z).dropLast, ?_, List.dropLast_sublist _⟩
        rw [← List.cons_append, List.dropLast_append_cons]
        rfl
      · have hno : ¬ (t.used = false ∨ t.priority > p) := by
          rintro (h | h)
          · rw [h] at ht; cases ht
          · exact hgt h
        rw [if_neg hno, if_neg hgt, he]
        exact ⟨tail, rfl, hsub⟩

/-- C18: in a state satisfying invariants 1-5, whatever the stale priority and
handler of the Unused slots, `irqAddHandler` completes and the Used slots and
`IRQS_IN_TABLE` it produces are those produced by the reference algorithm of the
specification, in which only a Used slot can be Eligible for merge. -/
theorem add_refines_reference (irqs func priority : Nat) (s : State) (hinv : Inv s)
    (hp : priority < 65536) :
    ∃ s1, irqAddHandler irqs func priority s = some s1 ∧
      usedSlots s1.IRQ_TABLE = usedSlots (spec_add_handler irqs func priority s).IRQ_TABLE ∧
      s1.IRQS_IN_TABLE = (spec_add_handler irqs func priority s).IRQS_IN_TABLE := by
  by_cases hrej : irqs &&& 0x3FFF = 0 ∨ func = 0 ∨ s.IRQS_IN_TABLE &&& (irqs &&& 0x3FFF) ≠ 0
  · refine ⟨s, irqAddHandler_rejected irqs func priority s hrej, ?_⟩
    have : spec_add_handler irqs func priority s = s := by
      unfold spec_add_handler
      simp only
      by_cases a : irqs &&& 0x3FFF = 0
      · rw [if_pos a]
      · rw [if_neg a]
        by_cases b : func = 0
        · rw [if_pos b]
        · rw [if_neg b, if_pos]
          rcases hrej with h | h | h
          · exact absurd h a
          · exact absurd h b
          · exact h
    rw [this]
    exact ⟨rfl, rfl⟩
  · have h1 : irqs &&& 0x3FFF ≠ 0 := fun h => hrej (Or.inl h)
    have h2 : func ≠ 0 := fun h => hrej (Or.inr (Or.inl h))
    have h3 : s.IRQS_IN_TABLE &&& (irqs &&& 0x3FFF) = 0 := by
      by_contra h; exact hrej (Or.inr (Or.inr h))
    have hm : irqs &&& 0x3FFF < 16384 := by rw [and_3fff]; omega
    have hm16 : irqs &&& 0x3FFF < 65536 := by omega
    obtain ⟨tail, he, hun, _, _⟩ := irqAddHandler_shape irqs func priority s hinv hp h1 h2 h3
    have hU : ∀ u ∈ usedSlots s.IRQ_TABLE, u.used = true := fun u hu => by
      unfold usedSlots at hu; exact (List.mem_filter.mp hu).2
    have hA := addUsed_all_used (irqs &&& 0x3FFF) func priority hm16 h1 _ hU
    obtain ⟨Z, hsplit, hZ⟩ := usedPrefix_split s.IRQ_TABLE hinv.2.1
    have hcnt := used_length_le (usedSlots s.IRQ_TABLE) (irqs &&& 0x3FFF)
      (inv_used_masks s hinv) hinv.2.2.2.1 h1 hm (by rw [← hinv.2.2.2.2.2]; exact h3)
    have hZne : Z ≠ [] := by
      intro h
      have := congrArg List.length hsplit
      rw [h, List.append_nil, hinv.1] at this
      simp only [N_IRQ] at this
      omega
    obtain ⟨z, Z1, rfl⟩ := List.exists_cons_of_ne_nil hZne
    obtain ⟨tail2, he2, hsub2⟩ := spec_scan_used_append (irqs &&& 0x3FFF) func priority z Z1
      (hZ z (List.mem_cons_self _ _)) (usedSlots s.IRQ_TABLE) hU
    rw [← hsplit] at he2
    have hspec : spec_add_handler irqs func priority s =
        { s with
          IRQ_TABLE := addUsed (irqs &&& 0x3FFF) func priority (usedSlots s.IRQ_TABLE) ++ tail2
          IRQS_IN_TABLE := s.IRQS_IN_TABLE ||| (irqs &&& 0x3FFF) } := by
      unfold spec_add_handler
      simp only
      rw [if_neg h1, if_neg h2, if_neg (by simpa using h3), he2]
    refine ⟨_, he, ?_, ?_⟩
    · rw [hspec]
      show usedSlots (_ ++ tail) = usedSlots (_ ++ tail2)
      rw [usedSlots_append_unused _ tail hA hun,
        usedSlots_append_unused _ tail2 hA (fun x hx => hZ x (hsub2.subset hx))]
    · rw [hspec]

/-- Instance of C18 on a table whose Unused slots carry a stale priority: the
request matches the stale priority and handler of the first Unused slot. -/
theorem add_refines_reference_witness :
    ∃ s1, irqAddHandler 0x0002 3 7 stalePriorityTable = some s1 ∧
      usedSlots s1.IRQ_TABLE = usedSlots (spec_add_handler 0x0002 3 7 stalePriorityTable).IRQ_TABLE ∧
      s1.IRQS_IN_TABLE = (spec_add_handler 0x0002 3 7 stalePriorityTable).IRQS_IN_TABLE :=
  add_refines_reference 0x0002 3 7 stalePriorityTable (by decide) (by decide)

/-! ## Uniqueness of `(priority, handler)` and reachable states -/

theorem addUsed_unique (m f p : Nat) (hm : m < 65536) (hp : p < 65536) : ∀ U : List IRQ,
    U.Pairwise (fun a b => a.priority ≤ b.priority) →
    U.Pairwise (fun a b => ¬ (a.priority = b.priority ∧ a.func = b.func)) →
    (addUsed m f p U).Pairwise
      (fun a b => ¬ (a.priority = b.priority ∧ a.func = b.func)) := by
  intro U
  induction U with
  | nil => intro _ _; simp [addUsed]
  | cons t rest ih =>
    intro hs hu
    rw [List.pairwise_cons] at hs hu
    rw [addUsed_cons]
    by_cases hmg : t.data >>> 16 = p ∧ t.func = f
    · rw [if_pos hmg, List.pairwise_cons]
      refine ⟨fun b hb => ?_, hu.2⟩
      rw [mergeSlot_priority m t hm]
      exact hu.1 b hb
    · rw [if_neg hmg]
      by_cases hgt : t.data >>> 16 > p
      · rw [if_pos hgt, List.pairwise_cons]
        refine ⟨fun b hb => ?_, List.pairwise_cons.mpr hu⟩
        rw [newSlot_priority m f p hm hp]
        have htp : p < t.priority := hgt
        intro hb2
        rcases List.mem_cons.mp hb with hb | hb
        · rw [hb] at hb2; omega
        · have := hs.1 b hb; omega
      · rw [if_neg hgt, List.pairwise_cons]
        refine ⟨fun b hb => ?_, ih hs.2 hu.2⟩
        rcases mem_addUsed m f p rest b hb with hb | hb | ⟨t0, ht0, hb⟩
        · exact hu.1 b hb
        · rw [hb, newSlot_priority m f p hm hp]
          exact fun h => hmg ⟨h.1, h.2⟩
        · rw [hb, mergeSlot_priority m t0 hm]
          exact hu.1 t0 ht0

/-- A call of `irqAddHandler` keeps the invariants together with the uniqueness
of `(priority, handler)` among the Used slots. -/
theorem irqAddHandler_unique (irqs func priority : Nat) (s : State) (hinv : Inv s)
    (hp : priority < 65536) (hu : UniquePairs s.IRQ_TABLE) :
    ∃ s1, irqAddHandler irqs func priority s = some s1 ∧ Inv s1 ∧
      UniquePairs s1.IRQ_TABLE := by
  obtain ⟨s1, he, hinv1⟩ := irqAddHandler_inv irqs func priority s hinv hp
  refine ⟨s1, he, hinv1, ?_⟩
  by_cases hrej : irqs &&& 0x3FFF = 0 ∨ func = 0 ∨ s.IRQS_IN_TABLE &&& (irqs &&& 0x3FFF) ≠ 0
  · rw [irqAddHandler_rejected irqs func priority s hrej] at he
    cases he
    exact hu
  · have h1 : irqs &&& 0x3FFF ≠ 0 := fun h => hrej (Or.inl h)
    have h2 : func ≠ 0 := fun h => hrej (Or.inr (Or.inl h))
    have h3 : s.IRQS_IN_TABLE &&& (irqs &&& 0x3FFF) = 0 := by
      by_contra h; exact hrej (Or.inr (Or.inr h))
    have hm16 : irqs &&& 0x3FFF < 65536 := by rw [and_3fff]; omega
    obtain ⟨tail, he2, hun, _, _⟩ := irqAddHandler_shape irqs func priority s hinv hp h1 h2 h3
    rw [he2] at he
    cases he
    have hU : ∀ u ∈ usedSlots s.IRQ_TABLE, u.used = true := fun u hu => by
      unfold usedSlots at hu; exact (List.mem_filter.mp hu).2
    have hA := addUsed_all_used (irqs &&& 0x3FFF) func priority hm16 h1 _ hU
    show UniquePairs (_ ++ tail)
    unfold UniquePairs
    rw [usedSlots_append_unused _ tail hA hun]
    exact addUsed_unique _ _ _ hm16 hp _ hinv.2.2.1 hu

theorem addSeq_unique : ∀ (calls : List (Nat × Nat × Nat)) (s s1 : State),
    Inv s → UniquePairs s.IRQ_TABLE → (∀ c ∈ calls, c.2.2 < 65536) →
    addSeq calls s = some s1 → Inv s1 ∧ UniquePairs s1.IRQ_TABLE := by
  intro calls
  induction calls with
  | nil =>
    intro s s1 hinv hu _ h
    cases h
    exact ⟨hinv, hu⟩
  | cons c rest ih =>
    intro s s1 hinv hu hc h
    obtain ⟨irqs, func, priority⟩ := c
    have hp : priority < 65536 := hc (irqs, func, priority) (List.mem_cons_self _ _)
    obtain ⟨s2, he, hinv2, hu2⟩ := irqAddHandler_unique irqs func priority s hinv hp hu
    unfold addSeq at h
    rw [he] at h
    exact ih s2 s1 hinv2 hu2 (fun d hd => hc d (List.mem_cons_of_mem _ hd)) h

theorem emptyState_inv (ime : Nat) : Inv (emptyState ime) ∧
    UniquePairs (emptyState ime).IRQ_TABLE := by
  have htbl : (emptyState ime).IRQ_TABLE = (emptyState 0).IRQ_TABLE := rfl
  have h0 : Inv (emptyState 0) ∧ UniquePairs (emptyState 0).IRQ_TABLE := by decide
  obtain ⟨⟨a, b, c, d, e, f⟩, g⟩ := h0
  refine ⟨⟨?_, ?_, ?_, ?_, ?_, ?_⟩, ?_⟩
  · rw [htbl]; exact a
  · rw [htbl]; exact b
  · rw [htbl]; exact c
  · rw [htbl]; exact d
  · rw [htbl]; exact e
  · exact f
  · rw [htbl]; exact g

/-- C19 does not hold as stated: fourteen requests of priority 0, one source bit
and one handler each, fill all 14 slots of the empty table, and the 14 Used
slots all have priority 0. -/
theorem full_table_same_priority :
    addSeq samePriorityCalls (emptyState 1) = some samePriorityTable ∧
      samePriorityTable.IRQ_TABLE.length = 14 ∧
      (∀ t ∈ samePriorityTable.IRQ_TABLE, t.irq_mask ≠ 0) ∧
      ¬ samePriorityTable.IRQ_TABLE.Pairwise (fun a b => a.priority ≠ b.priority) := by
  decide

/-- C19, amended: in every state reached from the empty table by a sequence of
`irqAddHandler` calls (with 16-bit priorities) in which all slots are Used, the
slots have pairwise distinct `(priority, handler)` pairs. -/
theorem reachable_full_distinct_pairs (calls : List (Nat × Nat × Nat)) (ime : Nat)
    (s : State) (hcalls : ∀ c ∈ calls, c.2.2 < 65536)
    (hreach : addSeq calls (emptyState ime) = some s)
    (hfull : ∀ t ∈ s.IRQ_TABLE, t.irq_mask ≠ 0) :
    s.IRQ_TABLE.length = 14 ∧
      s.IRQ_TABLE.Pairwise (fun a b => ¬ (a.priority = b.priority ∧ a.func = b.func)) := by
  obtain ⟨hinv, hu⟩ := addSeq_unique calls (emptyState ime) s (emptyState_inv ime).1
    (emptyState_inv ime).2 hcalls hreach
  refine ⟨hinv.1, ?_⟩
  have hall : usedSlots s.IRQ_TABLE = s.IRQ_TABLE := by
    unfold usedSlots
    exact List.filter_eq_self.mpr (fun t ht => (used_iff t).mpr (hfull t ht))
  unfold UniquePairs at hu
  rw [hall] at hu
  exact hu

/-- Instance of the amended C19 on the table built by the fourteen requests of
priority 0. -/
theorem reachable_full_distinct_pairs_witness :
    samePriorityTable.IRQ_TABLE.length = 14 ∧
      samePriorityTable.IRQ_TABLE.Pairwise
        (fun a b => ¬ (a.priority = b.priority ∧ a.func = b.func)) :=
  reachable_full_distinct_pairs samePriorityCalls 1 samePriorityTable (by decide) (by decide)
    (by decide)

/-- C20: in a state satisfying invariants 1-5 in which no two Used slots have both
the same priority and the same handler, every call of `irqAddHandler` completes
and leaves a table in which again no two Used slots have both the same priority
and the same handler. -/
theorem add_keeps_pairs_unique (irqs func priority : Nat) (s : State) (hinv : Inv s)
    (hp : priority < 65536)
    (hu : (usedSlots s.IRQ_TABLE).Pairwise
      (fun a b => ¬ (a.priority = b.priority ∧ a.func = b.func))) :
    ∃ s1, irqAddHandler irqs func priority s = some s1 ∧
      (usedSlots s1.IRQ_TABLE).Pairwise
        (fun a b => ¬ (a.priority = b.priority ∧ a.func = b.func)) := by
  obtain ⟨s1, he, _, hu1⟩ := irqAddHandler_unique irqs func priority s hinv hp hu
  exact ⟨s1, he, hu1⟩

/-- Instance of C20: a request of the priority of the existing entry for another
handler. -/
theorem add_keeps_pairs_unique_witness :
    ∃ s1, irqAddHandler 0x0002 2 5 oneEntry = some s1 ∧
      (usedSlots s1.IRQ_TABLE).Pairwise
        (fun a b => ¬ (a.priority = b.priority ∧ a.func = b.func)) :=
  add_keeps_pairs_unique 0x0002 2 5 oneEntry (by decide) (by decide) (by decide)

end Seven
